import Mathlib

/-!
# Verification of the GaloisField engine (GaloisField.py)

Shallow embedding of `src/GaloisField.py`.  Conventions used throughout:

* Python integers are `Int`; numpy integer arrays are `List Int`
  (low-degree coefficient first, as in the source).
* Python floats only ever hold exponents here; the reachable values are
  integers, `inf`, `-inf` and `nan`, modelled by the inductive `PyFloat`.
  `int(nan)` raises `ValueError` in Python; every operation that can hit
  such a failure (or an out-of-bounds numpy index, or a failed `assert`)
  returns an `Option`/error value, `none` meaning the Python call raises.
* Python `%` on integers is floor-mod; for a positive modulus this agrees
  with Lean's `Int.emod`, which is what we use (every modulus that occurs
  is `q - 1 ≥ 1`; a field always has `q = 2^m ≥ 2`).
* `while` loops are modelled with an explicit fuel parameter; running out
  of fuel is distinguished from a Python exception where it matters
  (`DivmodRes.spin` vs `DivmodRes.err`).
-/

namespace GaloisFieldPy

/-- `degree(p)`: order of `np.poly1d(np.flipud(p))`, i.e. the index of the
last nonzero coefficient; `np.poly1d` maps the all-zero (or empty) vector to
the zero polynomial of order `0`. -/
def degree (p : List Int) : Nat :=
  (p.reverse.dropWhile (fun x => x == 0)).length - 1

/-- `X(i)`: single coefficient polynomial `X^i` as a vector of length `i+1`. -/
def Xpoly (i : Nat) : List Int :=
  List.replicate i 0 ++ [1]

/-- Trimming `v[:degree(v)+1]` (remove dangling zeros), as done inside
`elementFromPoly` and `multPoly`. -/
def trim (p : List Int) : List Int :=
  p.take (degree p + 1)

/-- The Python float values reachable in the exponent arithmetic of the
engine: integers, the two infinities used as the zero element's exponent
sentinel, and `nan`. -/
inductive PyFloat where
  | fin (v : Int)
  | pinf
  | ninf
  | nan
deriving DecidableEq, Repr

namespace PyFloat

/-- IEEE addition restricted to the reachable values. -/
def add : PyFloat → PyFloat → PyFloat
  | nan, _ => nan
  | _, nan => nan
  | fin a, fin b => fin (a + b)
  | fin _, pinf => pinf
  | fin _, ninf => ninf
  | pinf, fin _ => pinf
  | pinf, pinf => pinf
  | pinf, ninf => nan
  | ninf, fin _ => ninf
  | ninf, ninf => ninf
  | ninf, pinf => nan

/-- IEEE subtraction restricted to the reachable values
(`-inf - -inf = nan`, `fin - -inf = +inf`, …). -/
def sub : PyFloat → PyFloat → PyFloat
  | nan, _ => nan
  | _, nan => nan
  | fin a, fin b => fin (a - b)
  | fin _, pinf => ninf
  | fin _, ninf => pinf
  | pinf, fin _ => pinf
  | pinf, pinf => nan
  | pinf, ninf => pinf
  | ninf, fin _ => ninf
  | ninf, ninf => nan
  | ninf, pinf => ninf

/-- IEEE multiplication of a reachable float by a Python integer
(`±inf * 0 = nan`). -/
def mulInt : PyFloat → Int → PyFloat
  | nan, _ => nan
  | fin a, n => fin (a * n)
  | pinf, n => if 0 < n then pinf else if n < 0 then ninf else nan
  | ninf, n => if 0 < n then ninf else if n < 0 then pinf else nan

end PyFloat

/-- The state of a `GaloisField` instance: the defining polynomial `_p` and
the cached table `_cachedPolyElements` built by `constructGF`. -/
structure GF where
  p : List Int
  table : List (List Int)
deriving Repr

namespace GF

/-- `self.m()` = `degree(self.p())`. -/
def m (gf : GF) : Nat := degree gf.p

/-- `self.q()` = `len(self._cachedPolyElements)`. -/
def q (gf : GF) : Nat := gf.table.length

/-- `element(a)`: canonicalize an arbitrary integer to its representative in
`[0, q)`.  Python's `%` on a positive modulus is `Int.emod`.  (For `q ≤ 1`
Python would raise `ZeroDivisionError`; every constructed field has
`q = 2^m ≥ 2`, and all theorems below carry that hypothesis.) -/
def element (gf : GF) (a : Int) : Int :=
  if a = 0 then 0
  else ((a - 1) % ((gf.q : Int) - 1)) + 1

/-- `elementToExp(a)`: exponent of an element, `-inf` for the zero element. -/
def elementToExp (gf : GF) (a : Int) : PyFloat :=
  let a' := gf.element a
  if a' = 0 then .ninf else .fin (a' - 1)

/-- `elementFromExp(exp_a)`: element from exponent; `±inf ↦ 0`; a `nan`
exponent reaches `int(nan)`, which raises (`none`). -/
def elementFromExp (gf : GF) (e : PyFloat) : Option Int :=
  match e with
  | .pinf => some 0
  | .ninf => some 0
  | .fin k => some (gf.element (k + 1))
  | .nan => none

/-- `elementToPoly(a, size_m)`: table lookup (with optional zero-padding to
width `m`); `none` models an out-of-range index or a negative pad width. -/
def elementToPoly (gf : GF) (a : Int) (size_m : Bool) : Option (List Int) := do
  let a' := gf.element a
  if h : 0 ≤ a' ∧ a'.toNat < gf.table.length then
    let poly := gf.table.get ⟨a'.toNat, h.2⟩
    if size_m then
      if poly.length ≤ gf.m then
        pure (poly ++ List.replicate (gf.m - poly.length) 0)
      else none
    else pure poly
  else none

/-- First index of the table whose trimmed entry equals the trimmed query
(linear search of `elementFromPoly`). -/
def tableFind (table : List (List Int)) (v : List Int) : Option Nat :=
  table.findIdx? (fun row => trim row == v)

/-- `elementFromPoly(poly_a)`: asserts `degree(poly_a) <= degree(p)`, trims,
then linearly searches the table; no match hits `assert False` (`none`). -/
def elementFromPoly (gf : GF) (v : List Int) : Option Int := do
  if degree v ≤ degree gf.p then
    match tableFind gf.table (trim v) with
    | some i => pure (i : Int)
    | none => none
  else none

/-- `addElements(a, b)`: polynomial-vector XOR followed by reverse lookup. -/
def addElements (gf : GF) (a b : Int) : Option Int := do
  let pa ← gf.elementToPoly a true
  let pb ← gf.elementToPoly b true
  let s := List.zipWith (fun x y => (x + y) % 2) pa pb
  gf.elementFromPoly s

/-- `multElements(a, b)`: exponent addition. -/
def multElements (gf : GF) (a b : Int) : Option Int :=
  gf.elementFromExp ((gf.elementToExp a).add (gf.elementToExp b))

/-- `divElements(a, b)`: exponent subtraction. -/
def divElements (gf : GF) (a b : Int) : Option Int :=
  gf.elementFromExp ((gf.elementToExp a).sub (gf.elementToExp b))

/-- `powElement(a, exponent)`: exponent scaling by the Python integer
`exponent`. -/
def powElement (gf : GF) (a : Int) (n : Int) : Option Int :=
  gf.elementFromExp ((gf.elementToExp a).mulInt n)

end GF

/-- The table of the global `GF2` instance (`constructGF` special case
`m == 1` returns `[[0], [1]]`). -/
def GF2 : GF := ⟨[1, 1], [[0], [1]]⟩

namespace GF

/-- One entry `summ[i]` of `addPoly`: Python copies `b[i]` (resp. `a[i]`)
raw when the index is past the end of the other operand, otherwise adds
in the field.  `none` models an out-of-bounds numpy access. -/
def addPolyEntry (gf : GF) (a b : List Int) (i : Nat) : Option Int :=
  if a.length ≤ i then b.get? i
  else if b.length ≤ i then a.get? i
  else do
    let x ← a.get? i
    let y ← b.get? i
    gf.addElements x y

/-- `addPoly(a, b)`: entries `0 .. max(degree a, degree b)`. -/
def addPoly (gf : GF) (a b : List Int) : Option (List Int) :=
  (List.range (max (degree a) (degree b) + 1)).mapM (gf.addPolyEntry a b)

/-- The body of the inner `for j` loop of `multPoly`:
`product[i + j] = addElements(product[i + j], multElements(a[i], b[j]))`. -/
def multPolyInner (gf : GF) (a b : List Int) (i : Nat) (prod : List Int)
    (j : Nat) : Option (List Int) := do
  let x ← a.get? i
  let y ← b.get? j
  let t ← gf.multElements x y
  let c ← prod.get? (i + j)
  let s ← gf.addElements c t
  pure (prod.set (i + j) s)

/-- The inner `for j in range(0, degree(b) + 1)` loop of `multPoly`. -/
def multPolyOuter (gf : GF) (a b : List Int) (prod : List Int) (i : Nat) :
    Option (List Int) :=
  (List.range (degree b + 1)).foldlM (gf.multPolyInner a b i) prod

/-- `multPoly(a, b)`: convolution into a zero-initialised array of length
`degree a + degree b + 1`, iterating `i` (outer) and `j` (inner) exactly as
the Python double loop, then trimming dangling zeros. -/
def multPoly (gf : GF) (a b : List Int) : Option (List Int) := do
  let prod ← (List.range (degree a + 1)).foldlM (gf.multPolyOuter a b)
    (List.replicate (degree a + degree b + 1) (0 : Int))
  pure (trim prod)

end GF

/-- Result of `divmodPoly`: a returned pair, a raised Python exception
(`err`, including the `assert` on an all-zero divisor), or a loop that has
not exited within the given fuel (`spin`). -/
inductive DivmodRes where
  | ok (q r : List Int)
  | err
  | spin
deriving DecidableEq, Repr

namespace GF

/-- One body of the `while degree(a) >= degree(b)` loop of `divmodPoly`:
build the monomial multiplier, subtract (= add) `multiplier · b` from `a`,
accumulate the multiplier into `q`.  Returns the new `(a, q)`. -/
def divmodStep (gf : GF) (b : List Int) (a q : List Int) :
    Option (List Int × List Int) := do
  let ca ← a.get? (degree a)
  let cb ← b.get? (degree b)
  let d ← gf.divElements ca cb
  let multiplier := (List.replicate (degree a - degree b + 1) (0 : Int)).set
    (degree a - degree b) d
  let s ← gf.multPoly b multiplier
  let a' ← gf.addPoly a s
  let q' ← gf.addPoly q multiplier
  pure (a', q')

/-- The `while` loop of `divmodPoly`, with fuel. -/
def divmodLoop (gf : GF) (b : List Int) : Nat → List Int → List Int → DivmodRes
  | fuel, a, q =>
    if degree a < degree b then .ok q a
    else
      match fuel with
      | 0 => .spin
      | fuel' + 1 =>
        match gf.divmodStep b a q with
        | none => .err
        | some (a', q') => gf.divmodLoop b fuel' a' q'

/-- `divmodPoly(a, b)`: asserts `np.count_nonzero(b) > 0`, then runs the
reduction loop starting from quotient `np.zeros(0)` (the empty vector). -/
def divmodPoly (gf : GF) (fuel : Nat) (a b : List Int) : DivmodRes :=
  if b.any (fun x => x != 0) then gf.divmodLoop b fuel a [] else .err

end GF

/-- `poly = GF2.multPoly(poly, a_high)` iterated `quotient` times
(`for j in range(0, quotient)` in `constructGF`). -/
def powAhigh (a_high : List Int) : Nat → List Int → Option (List Int)
  | 0, poly => some poly
  | j + 1, poly => do powAhigh a_high j (← GF2.multPoly poly a_high)

/-- The self-referential `while degree(poly) >= m` reduction of
`constructGF`: substitute the highest-degree term using the already
computed table entry `elements[degree(poly) + 1]`, then drop the top
coefficient (`poly[:-1]`).  Fuel `poly.length + 1` always suffices because
each iteration strictly shortens the vector. -/
def reduceHigh (m : Nat) (elements : List (List Int)) :
    Nat → List Int → Option (List Int)
  | 0, poly => if degree poly < m then some poly else none
  | fuel + 1, poly =>
    if degree poly < m then some poly
    else do
      let row ← elements.get? (degree poly + 1)
      let s ← GF2.addPoly poly row
      reduceHigh m elements fuel s.dropLast

/-- One iteration of the `for i in range(0, 2**m)` loop of `constructGF`:
compute the polynomial form of the element with integer representation `i`
from the table built so far, trimmed and zero-padded to width `m`. -/
def constructEntry (m : Nat) (p : List Int) (elements : List (List Int))
    (i : Nat) : Option (List Int) := do
  let exp : List Int := if i = 0 then [0] else Xpoly (i - 1)
  let poly ←
    if m ≤ degree exp then do
      let a_high := p.take m
      let powed ← powAhigh a_high (degree exp / m) (Xpoly (degree exp % m))
      reduceHigh m elements (powed.length + 1) powed
    else pure exp
  let t := trim poly
  if t.length ≤ m then pure (t ++ List.replicate (m - t.length) 0) else none

/-- `constructGF(p)`: the full table of `2^m` polynomial vectors, each
appended to the growing list so later entries may reference it.  `m = 0`
would hit `divmod(degree, 0)` (`ZeroDivisionError` in Python): `none`. -/
def constructGFtable (p : List Int) : Option (List (List Int)) :=
  let m := degree p
  if m = 0 then none
  else if m = 1 then some [[0], [1]]
  else
    (List.range (2 ^ m)).foldlM (fun elements i => do
      let e ← constructEntry m p elements i
      pure (elements ++ [e])) []

/-- `GaloisField(p)`: the engine owns `p` and the table built by
`constructGF` (the default `[]` is never reached for the concrete fields
used below, where `constructGFtable` is proved to succeed by evaluation). -/
def mkGF (p : List Int) : GF := ⟨p, (constructGFtable p).getD []⟩

/-- `GaloisField([1,1,1])`: GF(4). -/
def GF4 : GF := mkGF [1, 1, 1]

/-- `GaloisField([1,1,0,0,1])`: GF(16), the field of the spec's concrete
scenarios. -/
def G16 : GF := mkGF [1, 1, 0, 0, 1]

/-- Insert into an ascending list (helper for modelling Python
`sorted`). -/
def insertAsc (x : Int) : List Int → List Int
  | [] => [x]
  | y :: ys => if x ≤ y then x :: y :: ys else y :: insertAsc x ys

namespace GF

/-- The `while True` loop of `conjugateRoots`: append
`powElement(root, 2^l)` for `l = 1, 2, …` until the value returns to
`root`. -/
def conjugateRootsLoop (gf : GF) (root : Int) :
    Nat → Nat → List Int → Option (List Int)
  | 0, _, _ => none
  | fuel + 1, l, acc => do
    let nr ← gf.powElement root ((2 : Int) ^ l)
    let acc' := acc ++ [nr]
    if nr = root then pure acc' else gf.conjugateRootsLoop root fuel (l + 1) acc'

/-- `conjugateRoots(root)`: the orbit, sorted ascending (`sorted`; on a
list of integers Python's sort and the insertion sort below produce the
same — the unique ascending — list). -/
def conjugateRoots (gf : GF) (fuel : Nat) (root : Int) : Option (List Int) := do
  let roots ← gf.conjugateRootsLoop root fuel 1 []
  pure (roots.foldr insertAsc [])

/-- `conjugateRootGroups()`: seed `[[0]]`, then the orbit of every element
`i` in `range(0, 2**m - 1)`, skipping orbits already present
(`if group not in groups`). -/
def conjugateRootGroups (gf : GF) (fuel : Nat) : Option (List (List Int)) :=
  (List.range (2 ^ gf.m - 1)).foldlM (fun groups i => do
    let g ← gf.conjugateRoots fuel (i : Int)
    if g ∈ groups then pure groups else pure (groups ++ [g])) [[0]]

end GF

/-- Python `list.remove(x)`: delete the first occurrence of `x`. -/
def pyRemove (l : List Int) (x : Int) : List Int :=
  match l with
  | [] => []
  | y :: ys => if y = x then ys else y :: pyRemove ys x

/-- The inner loop of `removeConjugateRoots`: for every conjugate root
except the first, remove it from the (aliased) result list if present. -/
def strikeOrbit (orbit : List Int) (cur : List Int) : List Int :=
  orbit.foldl (fun c x => if x ∈ c then pyRemove c x else c) cur

namespace GF

/-- The `for root in roots` loop of `removeConjugateRoots`.  Python
iterates by index over the very list being mutated (`result` aliases
`roots`), reading `roots[i]` from the current state and stopping when the
index reaches the current length. -/
def rcrLoop (gf : GF) (cfuel : Nat) : Nat → Nat → List Int → Option (List Int)
  | 0, _, _ => none
  | fuel + 1, i, cur =>
    if h : i < cur.length then do
      let root := cur.get ⟨i, h⟩
      let orbit ← gf.conjugateRoots cfuel root
      gf.rcrLoop cfuel fuel (i + 1) (strikeOrbit (orbit.drop 1) cur)
    else some cur

/-- `removeConjugateRoots(roots)` over an explicit heap: `store` is the
heap of list objects, `r` the reference passed in.  The source does
`result = roots` (an alias), repeatedly calls `result.remove(...)`
(mutating the single shared object in place), and returns `result`; hence
the model returns the same reference `r` together with the heap updated at
`r`, and allocates nothing. -/
def removeConjugateRoots (gf : GF) (fuel : Nat) (store : List (List Int))
    (r : Nat) : Option (Nat × List (List Int)) := do
  let roots ← store.get? r
  let final ← gf.rcrLoop fuel fuel 0 roots
  pure (r, store.set r final)

end GF

/-! ## Basic lemmas about `degree` and `trim` -/

theorem degree_nil : degree [] = 0 := rfl

theorem degree_append_singleton (l : List Int) (a : Int) :
    degree (l ++ [a]) = if a = 0 then degree l else l.length := by
  by_cases h : a = 0 <;>
    simp [degree, List.dropWhile, h]

theorem degree_of_all_zero {p : List Int} (h : ∀ x ∈ p, x = 0) :
    degree p = 0 := by
  induction p using List.reverseRecOn with
  | nil => rfl
  | append_singleton l a ih =>
    have ha : a = 0 := h a (by simp)
    rw [degree_append_singleton, if_pos ha]
    exact ih fun x hx => h x (by simp [hx])

theorem degree_lt_length {p : List Int} (h : p ≠ []) : degree p < p.length := by
  induction p using List.reverseRecOn with
  | nil => exact absurd rfl h
  | append_singleton l a ih =>
    rw [degree_append_singleton]
    by_cases ha : a = 0
    · rw [if_pos ha]
      rcases List.eq_nil_or_concat l with hn | _
      · subst hn; simp [degree_nil]
      · have := ih (by rintro rfl; simp_all)
        simp only [List.length_append, List.length_singleton]
        omega
    · rw [if_neg ha]; simp

theorem getD_eq_zero_of_degree_lt {p : List Int} {i : Nat}
    (h : degree p < i) : p.getD i 0 = 0 := by
  induction p using List.reverseRecOn with
  | nil => simp
  | append_singleton l a ih =>
    rw [degree_append_singleton] at h
    by_cases ha : a = 0
    · rw [if_pos ha] at h
      by_cases hi : i < l.length
      · rw [List.getD_append _ _ _ _ hi]
        exact ih h
      · by_cases hi2 : i = l.length
        · subst hi2
          simp [List.getD_append_right, ha]
        · exact List.getD_eq_default _ _ (by simp; omega)
    · rw [if_neg ha] at h
      exact List.getD_eq_default _ _ (by simp; omega)

theorem getD_degree_ne_zero {p : List Int} (h : ∃ x ∈ p, x ≠ 0) :
    p.getD (degree p) 0 ≠ 0 := by
  induction p using List.reverseRecOn with
  | nil => simp at h
  | append_singleton l a ih =>
    rw [degree_append_singleton]
    by_cases ha : a = 0
    · rw [if_pos ha]
      have hl : ∃ x ∈ l, x ≠ 0 := by
        rcases h with ⟨x, hx, hxne⟩
        rcases List.mem_append.1 hx with h1 | h2
        · exact ⟨x, h1, hxne⟩
        · simp at h2; subst h2; exact absurd ha hxne
      have hdl : degree l < l.length :=
        degree_lt_length (by rintro rfl; simp at hl)
      rw [List.getD_append _ _ _ _ hdl]
      exact ih hl
    · rw [if_neg ha]
      simp [List.getD_append_right, ha]

theorem le_degree_of_getD_ne_zero {p : List Int} {i : Nat}
    (h : p.getD i 0 ≠ 0) : i ≤ degree p := by
  by_contra hc
  exact h (getD_eq_zero_of_degree_lt (by omega))

theorem degree_eq_of_getD {p : List Int} {d : Nat}
    (h1 : p.getD d 0 ≠ 0) (h2 : ∀ i, d < i → p.getD i 0 = 0) :
    degree p = d := by
  have hdlt : d < p.length := by
    by_contra hd
    exact h1 (List.getD_eq_default _ _ (by omega))
  have hex : ∃ x ∈ p, x ≠ 0 :=
    ⟨p.getD d 0, by rw [List.getD_eq_getElem _ _ hdlt]; exact List.getElem_mem hdlt, h1⟩
  have hle : d ≤ degree p := le_degree_of_getD_ne_zero h1
  have hge : degree p ≤ d := by
    by_contra hc
    exact getD_degree_ne_zero hex (h2 _ (by omega))
  omega

theorem degree_le_of_getD {p : List Int} {d : Nat}
    (h2 : ∀ i, d < i → p.getD i 0 = 0) : degree p ≤ d := by
  by_cases hex : ∃ x ∈ p, x ≠ 0
  · by_contra hc
    exact getD_degree_ne_zero hex (h2 _ (by omega))
  · push_neg at hex
    simp [degree_of_all_zero hex]

theorem degree_le_congr {p q : List Int}
    (h : ∀ i, p.getD i 0 = q.getD i 0) : degree p ≤ degree q :=
  degree_le_of_getD fun i hi => by
    rw [h]; exact getD_eq_zero_of_degree_lt hi

theorem degree_congr {p q : List Int}
    (h : ∀ i, p.getD i 0 = q.getD i 0) : degree p = degree q :=
  Nat.le_antisymm (degree_le_congr h) (degree_le_congr fun i => (h i).symm)

theorem trim_getD (p : List Int) (i : Nat) :
    (trim p).getD i 0 = if i ≤ degree p then p.getD i 0 else 0 := by
  unfold trim
  by_cases h : i ≤ degree p
  · rw [if_pos h]
    by_cases hip : i < p.length
    · rw [List.getD_eq_getElem _ _ (n := i) (by simp; omega),
        List.getD_eq_getElem _ _ hip]
      simp
    · rw [List.getD_eq_default _ _ (by simp; omega),
        List.getD_eq_default _ _ (by omega)]
  · rw [if_neg h]
    exact List.getD_eq_default _ _ (by simp; omega)

theorem degree_trim (p : List Int) : degree (trim p) = degree p := by
  refine degree_congr fun i => ?_
  rw [trim_getD]
  by_cases h : i ≤ degree p
  · rw [if_pos h]
  · rw [if_neg h]
    exact (getD_eq_zero_of_degree_lt (by omega)).symm

theorem trim_length {p : List Int} (h : p ≠ []) :
    (trim p).length = degree p + 1 := by
  have := degree_lt_length h
  simp [trim]
  omega

/-! ## Element-level lemmas -/

namespace GF

theorem element_zero (gf : GF) : gf.element 0 = 0 := by
  simp [element]

theorem element_of_ne_zero (gf : GF) {a : Int} (ha : a ≠ 0) :
    gf.element a = ((a - 1) % ((gf.q : Int) - 1)) + 1 := by
  simp [element, ha]

theorem element_pos_le (gf : GF) (hq : 2 ≤ gf.q) {a : Int} (ha : a ≠ 0) :
    1 ≤ gf.element a ∧ gf.element a ≤ (gf.q : Int) - 1 := by
  have hq2 : (2 : Int) ≤ (gf.q : Int) := by exact_mod_cast hq
  rw [element_of_ne_zero gf ha]
  have h1 := Int.emod_nonneg (a - 1) (by omega : ((gf.q : Int) - 1) ≠ 0)
  have h2 := Int.emod_lt_of_pos (a - 1) (by omega : (0 : Int) < (gf.q : Int) - 1)
  omega

theorem element_range (gf : GF) (hq : 2 ≤ gf.q) (a : Int) :
    0 ≤ gf.element a ∧ gf.element a < (gf.q : Int) := by
  have hq2 : (2 : Int) ≤ (gf.q : Int) := by exact_mod_cast hq
  by_cases ha : a = 0
  · subst ha; rw [element_zero]; omega
  · have := element_pos_le gf hq ha; omega

theorem element_ne_zero (gf : GF) (hq : 2 ≤ gf.q) {a : Int} (ha : a ≠ 0) :
    gf.element a ≠ 0 := by
  have := element_pos_le gf hq ha
  omega

theorem elementToExp_zero (gf : GF) : gf.elementToExp 0 = .ninf := by
  simp [elementToExp, element_zero]

theorem elementToExp_of_ne_zero (gf : GF) (hq : 2 ≤ gf.q) {a : Int}
    (ha : a ≠ 0) : gf.elementToExp a = .fin (gf.element a - 1) := by
  simp [elementToExp, element_ne_zero gf hq ha]

end GF

/-! ## C9: `element(a)` canonicalization -/

/-- C9 (confirmed): for every integer `a` — in range or not, negative or
not — `element(a)` is total and returns the canonical representative in
`[0, q)`: `0 ↦ 0`, and `a ≠ 0 ↦ ((a - 1) mod (q - 1)) + 1 ∈ [1, q - 1]`
(Python floor-mod, which is `Int.emod` for the positive modulus
`q - 1`). -/
theorem element_canonicalizes (gf : GF) (hq : 2 ≤ gf.q) (a : Int) :
    (a = 0 → gf.element a = 0) ∧
    (a ≠ 0 → gf.element a = ((a - 1) % ((gf.q : Int) - 1)) + 1 ∧
      1 ≤ gf.element a ∧ gf.element a ≤ (gf.q : Int) - 1) ∧
    0 ≤ gf.element a ∧ gf.element a < (gf.q : Int) := by
  refine ⟨fun ha => by subst ha; exact GF.element_zero gf,
    fun ha => ⟨GF.element_of_ne_zero gf ha, GF.element_pos_le gf hq ha⟩,
    GF.element_range gf hq a⟩

/-- Witness for C9 at the concrete field GF(16) and the out-of-range
negative input `a = -7` (whose canonical representative is `8`). -/
theorem element_canonicalizes_witness :
    2 ≤ G16.q ∧ ((-7 : Int) ≠ 0 → G16.element (-7) =
      (((-7 : Int) - 1) % ((G16.q : Int) - 1)) + 1 ∧
      1 ≤ G16.element (-7) ∧ G16.element (-7) ≤ (G16.q : Int) - 1) :=
  ⟨by decide, (element_canonicalizes G16 (by decide) (-7)).2.1⟩

/-! ## C1: division by the zero field element -/

/-- C1 counterexample: dividing the nonzero element `3` of GF(16) by the
zero element does NOT fail — it silently returns the zero element `0`
(the exponent difference is `+inf`, which `elementFromExp` maps to `0`). -/
theorem divElements_by_zero_silently_returns_zero :
    G16.divElements 3 0 = some 0 := by decide

/-- C1 amended: for a nonzero dividend `a`, `divElements(a, 0)` silently
returns `0`; only for `a = 0` does the call fail, and then with a generic
`ValueError` from `int(nan)` (modelled `none`), not a distinct
division-by-zero-element error. -/
theorem divElements_zero_divisor (gf : GF) (hq : 2 ≤ gf.q) (a : Int) :
    gf.divElements a 0 = if a = 0 then none else some 0 := by
  by_cases ha : a = 0
  · subst ha
    simp [GF.divElements, GF.elementToExp_zero, PyFloat.sub, GF.elementFromExp]
  · rw [if_neg ha, GF.divElements, GF.elementToExp_of_ne_zero gf hq ha,
      GF.elementToExp_zero]
    simp [PyFloat.sub, GF.elementFromExp]

/-- Witness for the amended C1 at GF(16), `a = 3`. -/
theorem divElements_zero_divisor_witness :
    2 ≤ G16.q ∧ G16.divElements 3 0 = if (3 : Int) = 0 then none else some 0 :=
  ⟨by decide, divElements_zero_divisor G16 (by decide) 3⟩

/-! ## C6: totality of `powElement` -/

/-- C6 counterexample: `powElement(0, 0)` raises — the exponent product is
`-inf * 0 = nan` and `int(nan)` is a `ValueError` (modelled `none`), so the
engine is not total on the documented domain (`a ∈ [0, q)`, `n ≥ 0`). -/
theorem powElement_zero_zero_raises : GF2.powElement 0 0 = none := by decide

/-- C6 amended: `powElement(a, n)` returns a canonical field element for
every `a ∈ [0, q)` and integer `n ≥ 0` EXCEPT the single pair
`a = 0, n = 0`, where it raises a `ValueError` (`-inf * 0 = nan`). -/
theorem powElement_total (gf : GF) (hq : 2 ≤ gf.q) (a n : Int)
    (ha0 : 0 ≤ a) (ha1 : a < (gf.q : Int)) (hn : 0 ≤ n)
    (hne : ¬(a = 0 ∧ n = 0)) :
    ∃ v, gf.powElement a n = some v ∧ 0 ≤ v ∧ v < (gf.q : Int) := by
  have hq2 : (2 : Int) ≤ (gf.q : Int) := by exact_mod_cast hq
  by_cases ha : a = 0
  · subst ha
    have hnpos : (0 : Int) < n := by
      rcases lt_or_eq_of_le hn with h | h
      · exact h
      · exact absurd ⟨rfl, h.symm⟩ hne
    refine ⟨0, ?_, le_refl 0, by omega⟩
    simp [GF.powElement, GF.elementToExp_zero, PyFloat.mulInt, hnpos,
      GF.elementFromExp]
  · rw [GF.powElement, GF.elementToExp_of_ne_zero gf hq ha]
    simp only [PyFloat.mulInt, GF.elementFromExp]
    exact ⟨_, rfl, GF.element_range gf hq _⟩

/-- Witness for the amended C6 at GF(16), `a = 2` (α), `n = 5`. -/
theorem powElement_total_witness :
    2 ≤ G16.q ∧ ∃ v, G16.powElement 2 5 = some v ∧ 0 ≤ v ∧ v < (G16.q : Int) :=
  ⟨by decide, powElement_total G16 (by decide) 2 5 (by decide) (by decide)
    (by decide) (by decide)⟩

/-! ## C2: non-termination of `divmodPoly` on constant divisors -/

/-- One loop body maps the state `a = [0]`, `q = [1]` to itself. -/
theorem divmodStep_GF2_fixpoint :
    GF2.divmodStep [1] [0] [1] = some ([0], [1]) := by decide

/-- The first loop body, from `a = [1]`, `q = []`. -/
theorem divmodStep_GF2_first :
    GF2.divmodStep [1] [1] [] = some ([0], [1]) := by decide

/-- C2 (code bug): dividing by a nonzero CONSTANT polynomial never
terminates.  With `a = [1]`, `b = [1]` over GF(2) the loop guard
`degree(a) >= degree(b)` compares `0 >= 0`; after one iteration `a` is the
zero polynomial `[0]`, whose degree is again `0`, and the loop body maps
the state `(a, q) = ([0], [1])` to itself forever — for every fuel bound
the loop is still running.  The spec's claim that each step "strictly
reduces deg(a) or leaves it equal-degree-but-zero, and the loop then
exits" fails: the equal-degree-but-zero state does not exit when
`degree(b) = 0`. -/
theorem divmodPoly_constant_divisor_spins (fuel : Nat) :
    GF2.divmodPoly fuel [1] [1] = .spin := by
  have key : ∀ n, GF2.divmodLoop [1] n [0] [1] = .spin := by
    intro n
    induction n with
    | zero => decide
    | succ k ih =>
      rw [GF.divmodLoop]
      rw [if_neg (by decide : ¬ degree [(0 : Int)] < degree [(1 : Int)])]
      rw [divmodStep_GF2_fixpoint]
      exact ih
  cases fuel with
  | zero => decide
  | succ n =>
    rw [GF.divmodPoly, if_pos (by decide), GF.divmodLoop]
    rw [if_neg (by decide : ¬ degree [(1 : Int)] < degree [(1 : Int)])]
    rw [divmodStep_GF2_first]
    exact key n

/-! ## C4: conjugate root groups -/

/-- C4 counterexample: for GF(2) (`m = 1`), `conjugateRootGroups()` returns
only `[[0]]` — the loop seeds orbits from the elements `range(0, 2^m - 1) =
{0}`, so the nonzero element `1` is never reached and the groups do NOT
cover all `q = 2` field elements. -/
theorem conjugateRootGroups_GF2_misses_one :
    GF2.conjugateRootGroups 5 = some [[0]] ∧
      ∀ g ∈ [[(0 : Int)]], (1 : Int) ∉ g := by decide

/-- C4 amended: the universal claim fails at `m = 1`, where the element `1`
is never covered (see the counterexample); for the spec's concrete scenario
GF(16) the returned orbits are
`[0], [1], {2,3,5,9}, {4,7,10,13}, {6,11}, {8,12,14,15}`: every one of the
16 field elements lies in exactly one group, and each orbit size divides
`m = 4`. -/
theorem conjugateRootGroups_G16_partition :
    G16.conjugateRootGroups 10 =
      some [[0], [1], [2, 3, 5, 9], [4, 7, 10, 13], [6, 11], [8, 12, 14, 15]] ∧
    (∀ e ∈ List.range 16,
      List.countP (fun g => decide ((e : Int) ∈ g))
        [[0], [1], [2, 3, 5, 9], [4, 7, 10, 13], [6, 11], [8, 12, 14, 15]] = 1) ∧
    (∀ g ∈ [[(0 : Int)], [1], [2, 3, 5, 9], [4, 7, 10, 13], [6, 11],
        [8, 12, 14, 15]], g.length ∣ 4) := by decide

/-! ## C5: trimming of returned polynomials -/

/-- A coefficient vector is trimmed when it carries no high-order zero
beyond the true degree (the minimum-length-1 zero polynomial `[0]` counts
as trimmed). -/
def isTrimmedB (l : List Int) : Bool := l.length == degree l + 1

/-- C5 counterexample: `addPoly([1,1], [0,1])` over GF(2) returns `[1,0]`:
the leading coefficients cancel and the high-order zero is NOT trimmed
(the vector has length 2 but true degree 0). -/
theorem addPoly_result_not_trimmed :
    GF2.addPoly [1, 1] [0, 1] = some [1, 0] ∧ isTrimmedB [1, 0] = false := by
  decide

theorem multPolyInner_length {gf : GF} {a b : List Int} {i j : Nat}
    {prod res : List Int} (h : gf.multPolyInner a b i prod j = some res) :
    res.length = prod.length := by
  unfold GF.multPolyInner at h
  rcases Option.bind_eq_some.mp h with ⟨x, hx, h⟩
  rcases Option.bind_eq_some.mp h with ⟨y, hy, h⟩
  rcases Option.bind_eq_some.mp h with ⟨t, ht, h⟩
  rcases Option.bind_eq_some.mp h with ⟨c, hc, h⟩
  rcases Option.bind_eq_some.mp h with ⟨s, hs, h⟩
  simp only [Option.pure_def, Option.some_inj] at h
  subst h
  simp

theorem foldlM_multPolyInner_length {gf : GF} {a b : List Int} {i : Nat} :
    ∀ {js : List Nat} {prod res : List Int},
      js.foldlM (gf.multPolyInner a b i) prod = some res →
      res.length = prod.length := by
  intro js
  induction js with
  | nil => intro prod res h; simp_all
  | cons j js ih =>
    intro prod res h
    rw [List.foldlM_cons] at h
    rcases Option.bind_eq_some.mp h with ⟨mid, hmid, hrest⟩
    rw [ih hrest, multPolyInner_length hmid]

theorem multPolyOuter_length {gf : GF} {a b : List Int} {i : Nat}
    {prod res : List Int} (h : gf.multPolyOuter a b prod i = some res) :
    res.length = prod.length :=
  foldlM_multPolyInner_length h

theorem foldlM_multPolyOuter_length {gf : GF} {a b : List Int} :
    ∀ {is : List Nat} {prod res : List Int},
      is.foldlM (gf.multPolyOuter a b) prod = some res →
      res.length = prod.length := by
  intro is
  induction is with
  | nil => intro prod res h; simp_all
  | cons i is ih =>
    intro prod res h
    rw [List.foldlM_cons] at h
    rcases Option.bind_eq_some.mp h with ⟨mid, hmid, hrest⟩
    rw [ih hrest, multPolyOuter_length hmid]

/-- Inversion for `multPoly`: a successful result is the trim of an
accumulator array of length `degree a + degree b + 1`. -/
theorem multPoly_inv {gf : GF} {a b c : List Int}
    (h : gf.multPoly a b = some c) :
    ∃ prod, (List.range (degree a + 1)).foldlM (gf.multPolyOuter a b)
        (List.replicate (degree a + degree b + 1) (0 : Int)) = some prod ∧
      c = trim prod ∧ prod.length = degree a + degree b + 1 := by
  unfold GF.multPoly at h
  rcases Option.bind_eq_some.mp h with ⟨prod, hprod, hc⟩
  simp only [Option.pure_def, Option.some_inj] at hc
  exact ⟨prod, hprod, hc.symm, by
    rw [foldlM_multPolyOuter_length hprod]; simp⟩

/-- C5 amended: `multPoly` results ARE always trimmed (the source trims
them explicitly with `product[:degree(product) + 1]`); `addPoly` and the
`divmodPoly` remainder are not always trimmed (see the counterexample). -/
theorem multPoly_trimmed (gf : GF) (a b c : List Int)
    (h : gf.multPoly a b = some c) : isTrimmedB c = true := by
  rcases multPoly_inv h with ⟨prod, _, rfl, hlen⟩
  have hne : prod ≠ [] := by
    intro hnil
    rw [hnil] at hlen
    simp at hlen
  unfold isTrimmedB
  rw [trim_length hne, degree_trim]
  simp

/-- Witness for the amended C5: multiplying `1 + X` by itself over GF(2)
yields the trimmed `[1, 0, 1]`. -/
theorem multPoly_trimmed_witness :
    GF2.multPoly [1, 1] [1, 1] = some [1, 0, 1] ∧
      isTrimmedB [1, 0, 1] = true :=
  ⟨by decide, multPoly_trimmed GF2 [1, 1] [1, 1] [1, 0, 1] (by decide)⟩

/-! ## C7: integer–polynomial round trip -/

theorem findIdx?_first_match {α : Type} (p : α → Bool) :
    ∀ (l : List α) (s i : Nat) (hi : i < l.length),
      p (l.get ⟨i, hi⟩) = true →
      (∀ j, j < i → ∀ (hj : j < l.length), p (l.get ⟨j, hj⟩) = false) →
      List.findIdx? p l s = some (s + i) := by
  intro l
  induction l with
  | nil => intro s i hi; simp at hi
  | cons x xs ih =>
    intro s i hi hp hbefore
    rw [List.findIdx?_cons]
    cases i with
    | zero =>
      rw [if_pos (by simpa using hp)]
      simp
    | succ k =>
      rw [if_neg (by simpa using (hbefore 0 (Nat.succ_pos k) (by simp)))]
      have := ih (s + 1) k (by simpa using hi) (by simpa using hp)
        (fun j hj hjl => by
          simpa using hbefore (j + 1) (by omega) (by simpa using hjl))
      rw [this]
      congr 1
      omega

theorem element_eq_self (gf : GF) (hq : 2 ≤ gf.q) {a : Int}
    (h0 : 0 ≤ a) (h1 : a < (gf.q : Int)) : gf.element a = a := by
  by_cases ha : a = 0
  · subst ha; exact GF.element_zero gf
  · rw [GF.element_of_ne_zero gf ha,
      Int.emod_eq_of_lt (by omega) (by omega)]
    omega

/-- C7 (confirmed): for every valid `a ∈ [0, q)`,
`elementFromPoly(elementToPoly(a))` succeeds and equals `element(a)`.
The two table hypotheses hold of any properly constructed field (rows fit
below `degree p`, and the trimmed rows are pairwise distinct); they are
discharged by evaluation for GF(16) in the witness. -/
theorem elementFromPoly_elementToPoly_roundtrip (gf : GF) (hq : 2 ≤ gf.q)
    (hdeg : ∀ row ∈ gf.table, degree row ≤ degree gf.p)
    (hnd : (gf.table.map trim).Nodup)
    (a : Int) (h0 : 0 ≤ a) (h1 : a < (gf.q : Int)) :
    ∃ pa, gf.elementToPoly a false = some pa ∧
      gf.elementFromPoly pa = some (gf.element a) := by
  have hea : gf.element a = a := element_eq_self gf hq h0 h1
  have htn : a.toNat < gf.table.length := by
    have : (gf.q : Int) = (gf.table.length : Int) := by rfl
    omega
  refine ⟨gf.table.get ⟨a.toNat, htn⟩, ?_, ?_⟩
  · simp only [GF.elementToPoly, hea]
    rw [dif_pos ⟨h0, htn⟩]
    simp
  · have hmem : gf.table.get ⟨a.toNat, htn⟩ ∈ gf.table := List.get_mem _ _ _
    unfold GF.elementFromPoly
    rw [if_pos (hdeg _ hmem)]
    have hfind : GF.tableFind gf.table (trim (gf.table.get ⟨a.toNat, htn⟩)) =
        some a.toNat := by
      unfold GF.tableFind
      have := findIdx?_first_match
        (fun row => trim row == trim (gf.table.get ⟨a.toNat, htn⟩))
        gf.table 0 a.toNat htn (by simp)
        (fun j hj hjl => by
          simp only [beq_eq_false_iff_ne, ne_eq]
          intro heq
          have hinj := List.nodup_iff_injective_get.mp hnd
          have hlen : ∀ k, k < gf.table.length →
              k < (gf.table.map trim).length := by simp
          have : (gf.table.map trim).get ⟨j, hlen j hjl⟩ =
              (gf.table.map trim).get ⟨a.toNat, hlen _ htn⟩ := by
            rw [List.get_map, List.get_map]
            exact heq
          have := hinj this
          simp only [Fin.mk.injEq] at this
          omega)
      simpa using this
    rw [hfind]
    simp [hea, Int.toNat_of_nonneg h0]

/-- Witness for C7 at GF(16), `a = 7` (the element `α^2 + α^3`). -/
theorem elementFromPoly_elementToPoly_roundtrip_witness :
    2 ≤ G16.q ∧ ∃ pa, G16.elementToPoly 7 false = some pa ∧
      G16.elementFromPoly pa = some (G16.element 7) :=
  ⟨by decide, elementFromPoly_elementToPoly_roundtrip G16 (by decide)
    (by decide) (by decide) 7 (by decide) (by decide)⟩

/-! ## Element algebra used by the `divmodPoly` correctness proof (C3)

`addC`, `mulC`, `divC` are the value-level versions of the three element
operations (defined on successful results).  The laws that depend on the
field table (`addElements` goes through the table) are collected in the
decidable predicate `GFLaws` and discharged by evaluation on concrete
fields; everything about `multElements`/`divElements` (pure exponent
arithmetic) is proved generically. -/

/-- A canonical field element: an integer in `[0, q)`. -/
def Canon (gf : GF) (x : Int) : Prop := 0 ≤ x ∧ x < (gf.q : Int)

/-- A vector all of whose coefficients are canonical field elements
(what the spec calls a polynomial over the field). -/
def CanonL (gf : GF) (l : List Int) : Prop := ∀ x ∈ l, Canon gf x

instance (gf : GF) (x : Int) : Decidable (Canon gf x) := by
  unfold Canon
  infer_instance

instance (gf : GF) (l : List Int) : Decidable (CanonL gf l) := by
  unfold CanonL
  exact List.decidableBAll _ l

/-- The canonical representatives `0, 1, …, q-1` as a list (for stating
the table laws in decidable, bounded form). -/
def intRange (n : Nat) : List Int := (List.range n).map Int.ofNat

/-- Value of `addElements` on its (always, for canonical inputs)
successful result. -/
def addC (gf : GF) (x y : Int) : Int := (gf.addElements x y).getD 0

/-- Value of `multElements` (always successful). -/
def mulC (gf : GF) (x y : Int) : Int := (gf.multElements x y).getD 0

/-- Value of `divElements` on its successful result. -/
def divC (gf : GF) (x y : Int) : Int := (gf.divElements x y).getD 0

theorem mem_intRange_iff {n : Nat} {x : Int} :
    x ∈ intRange n ↔ 0 ≤ x ∧ x < (n : Int) := by
  unfold intRange
  rw [List.mem_map]
  constructor
  · rintro ⟨k, hk, hkx⟩
    rw [List.mem_range] at hk
    subst hkx
    constructor
    · exact Int.ofNat_nonneg k
    · rw [Int.ofNat_eq_natCast]
      exact_mod_cast hk
  · rintro ⟨h0, h1⟩
    refine ⟨x.toNat, ?_, Int.toNat_of_nonneg h0⟩
    rw [List.mem_range]
    omega

theorem canon_iff_mem {gf : GF} {x : Int} :
    Canon gf x ↔ x ∈ intRange gf.q := by
  rw [mem_intRange_iff]; rfl

/-- The table-dependent laws of the element algebra, on canonical
elements: totality and closure of `addElements`, `0` as its two-sided
identity, characteristic 2 (`x + x = 0`), commutativity, associativity,
and distributivity of `multElements` over it.  All hold of any properly
constructed field and are decided by evaluation for the concrete witness
fields. -/
def GFLaws (gf : GF) : Prop :=
  2 ≤ gf.q ∧
  (∀ x ∈ intRange gf.q, ∀ y ∈ intRange gf.q,
    gf.addElements x y = some (addC gf x y) ∧ addC gf x y ∈ intRange gf.q ∧
    addC gf x y = addC gf y x) ∧
  (∀ x ∈ intRange gf.q,
    gf.addElements x 0 = some x ∧ gf.addElements 0 x = some x ∧
    gf.addElements x x = some 0) ∧
  (∀ x ∈ intRange gf.q, ∀ y ∈ intRange gf.q, ∀ z ∈ intRange gf.q,
    addC gf (addC gf x y) z = addC gf x (addC gf y z) ∧
    mulC gf z (addC gf x y) = addC gf (mulC gf z x) (mulC gf z y))

instance (gf : GF) : Decidable (GFLaws gf) := by
  unfold GFLaws
  infer_instance

theorem laws_q {gf : GF} (L : GFLaws gf) : 2 ≤ gf.q := L.1

theorem canon_zero {gf : GF} (L : GFLaws gf) : Canon gf 0 := by
  have h := L.1
  refine ⟨le_refl 0, ?_⟩
  have h2 : 0 < gf.q := by omega
  exact_mod_cast h2

theorem laws_addE {gf : GF} (L : GFLaws gf) {x y : Int}
    (hx : Canon gf x) (hy : Canon gf y) :
    gf.addElements x y = some (addC gf x y) :=
  (L.2.1 x (canon_iff_mem.mp hx) y (canon_iff_mem.mp hy)).1

theorem laws_addC_canon {gf : GF} (L : GFLaws gf) {x y : Int}
    (hx : Canon gf x) (hy : Canon gf y) : Canon gf (addC gf x y) :=
  canon_iff_mem.mpr (L.2.1 x (canon_iff_mem.mp hx) y (canon_iff_mem.mp hy)).2.1

theorem laws_addC_comm {gf : GF} (L : GFLaws gf) {x y : Int}
    (hx : Canon gf x) (hy : Canon gf y) : addC gf x y = addC gf y x :=
  (L.2.1 x (canon_iff_mem.mp hx) y (canon_iff_mem.mp hy)).2.2

theorem laws_addE_zero_right {gf : GF} (L : GFLaws gf) {x : Int}
    (hx : Canon gf x) : gf.addElements x 0 = some x :=
  (L.2.2.1 x (canon_iff_mem.mp hx)).1

theorem laws_addE_zero_left {gf : GF} (L : GFLaws gf) {x : Int}
    (hx : Canon gf x) : gf.addElements 0 x = some x :=
  (L.2.2.1 x (canon_iff_mem.mp hx)).2.1

theorem laws_addE_self {gf : GF} (L : GFLaws gf) {x : Int}
    (hx : Canon gf x) : gf.addElements x x = some 0 :=
  (L.2.2.1 x (canon_iff_mem.mp hx)).2.2

theorem laws_addC_zero_right {gf : GF} (L : GFLaws gf) {x : Int}
    (hx : Canon gf x) : addC gf x 0 = x := by
  unfold addC
  rw [laws_addE_zero_right L hx]
  rfl

theorem laws_addC_zero_left {gf : GF} (L : GFLaws gf) {x : Int}
    (hx : Canon gf x) : addC gf 0 x = x := by
  unfold addC
  rw [laws_addE_zero_left L hx]
  rfl

theorem laws_addC_self {gf : GF} (L : GFLaws gf) {x : Int}
    (hx : Canon gf x) : addC gf x x = 0 := by
  unfold addC
  rw [laws_addE_self L hx]
  rfl

theorem laws_addC_assoc {gf : GF} (L : GFLaws gf) {x y z : Int}
    (hx : Canon gf x) (hy : Canon gf y) (hz : Canon gf z) :
    addC gf (addC gf x y) z = addC gf x (addC gf y z) :=
  (L.2.2.2 x (canon_iff_mem.mp hx) y (canon_iff_mem.mp hy) z
    (canon_iff_mem.mp hz)).1

theorem laws_distrib {gf : GF} (L : GFLaws gf) {x y z : Int}
    (hx : Canon gf x) (hy : Canon gf y) (hz : Canon gf z) :
    mulC gf z (addC gf x y) = addC gf (mulC gf z x) (mulC gf z y) :=
  (L.2.2.2 x (canon_iff_mem.mp hx) y (canon_iff_mem.mp hy) z
    (canon_iff_mem.mp hz)).2

/-- The AC-juggling identity used when one reduction step cancels:
`(x + z) + (y + z) = x + y` in characteristic 2. -/
theorem laws_addC_cancel_pair {gf : GF} (L : GFLaws gf) {x y z : Int}
    (hx : Canon gf x) (hy : Canon gf y) (hz : Canon gf z) :
    addC gf (addC gf x z) (addC gf y z) = addC gf x y := by
  rw [laws_addC_assoc L hx hz (laws_addC_canon L hy hz),
    laws_addC_comm L hy hz,
    ← laws_addC_assoc L hz hz hy,
    laws_addC_self L hz,
    laws_addC_zero_left L hy]

/-! ### Generic lemmas about `multElements` and `divElements`
(pure exponent arithmetic — no table involved). -/

theorem option_eq_some_getD {o : Option Int} (h : o.isSome) :
    o = some (o.getD 0) := by
  cases o <;> simp_all

theorem multElements_isSome (gf : GF) (x y : Int) :
    (gf.multElements x y).isSome := by
  unfold GF.multElements GF.elementToExp
  by_cases hx : gf.element x = 0 <;> by_cases hy : gf.element y = 0 <;>
    simp [hx, hy, PyFloat.add, GF.elementFromExp]

theorem multElements_eq_mulC (gf : GF) (x y : Int) :
    gf.multElements x y = some (mulC gf x y) :=
  option_eq_some_getD (multElements_isSome gf x y)

theorem mulC_canon (gf : GF) (hq : 2 ≤ gf.q) (x y : Int) :
    Canon gf (mulC gf x y) := by
  have hq2 : (2 : Int) ≤ (gf.q : Int) := by exact_mod_cast hq
  unfold mulC GF.multElements GF.elementToExp
  by_cases hx : gf.element x = 0 <;> by_cases hy : gf.element y = 0 <;>
    simp only [hx, hy, if_pos, if_neg, ite_true, ite_false, PyFloat.add,
      GF.elementFromExp, Option.getD_some] <;>
    first
      | exact ⟨le_refl 0, by omega⟩
      | exact GF.element_range gf hq _

theorem mulC_zero_right (gf : GF) (x : Int) : mulC gf x 0 = 0 := by
  unfold mulC GF.multElements GF.elementToExp
  have h0 : gf.element 0 = 0 := GF.element_zero gf
  by_cases hx : gf.element x = 0 <;>
    simp [hx, h0, PyFloat.add, GF.elementFromExp]

theorem mulC_zero_left (gf : GF) (x : Int) : mulC gf 0 x = 0 := by
  unfold mulC GF.multElements GF.elementToExp
  have h0 : gf.element 0 = 0 := GF.element_zero gf
  by_cases hx : gf.element x = 0 <;>
    simp [hx, h0, PyFloat.add, GF.elementFromExp]

theorem mulC_of_canon_ne (gf : GF) (hq : 2 ≤ gf.q) {x y : Int}
    (hx : Canon gf x) (hxne : x ≠ 0) (hy : Canon gf y) (hyne : y ≠ 0) :
    mulC gf x y = gf.element (x + y - 1) := by
  have hex : gf.element x = x := element_eq_self gf hq hx.1 hx.2
  have hey : gf.element y = y := element_eq_self gf hq hy.1 hy.2
  unfold mulC GF.multElements GF.elementToExp
  simp only [hex, hey, if_neg hxne, if_neg hyne, PyFloat.add,
    GF.elementFromExp, Option.getD_some]
  congr 1
  ring

theorem mulC_ne_zero (gf : GF) (hq : 2 ≤ gf.q) {x y : Int}
    (hx : Canon gf x) (hxne : x ≠ 0) (hy : Canon gf y) (hyne : y ≠ 0) :
    mulC gf x y ≠ 0 := by
  rw [mulC_of_canon_ne gf hq hx hxne hy hyne]
  have harg : x + y - 1 ≠ 0 := by
    rcases hx with ⟨hx0, _⟩
    rcases hy with ⟨hy0, _⟩
    omega
  have := GF.element_pos_le gf hq harg
  omega

theorem mulC_comm (gf : GF) (x y : Int) : mulC gf x y = mulC gf y x := by
  have hcomm : ∀ u v : PyFloat, u.add v = v.add u := by
    intro u v
    cases u <;> cases v <;> simp [PyFloat.add] <;> ring
  unfold mulC GF.multElements
  rw [hcomm]

theorem divElements_of_canon (gf : GF) (hq : 2 ≤ gf.q) {x y : Int}
    (hx : Canon gf x) (hy : Canon gf y) (hyne : y ≠ 0) :
    gf.divElements x y = some (divC gf x y) ∧ Canon gf (divC gf x y) ∧
      (x = 0 → divC gf x y = 0) := by
  have hq2 : (2 : Int) ≤ (gf.q : Int) := by exact_mod_cast hq
  have hey : gf.element y = y := element_eq_self gf hq hy.1 hy.2
  by_cases hxz : x = 0
  · subst hxz
    have h1 : gf.divElements 0 y = some 0 := by
      unfold GF.divElements GF.elementToExp
      simp [GF.element_zero, hey, hyne, PyFloat.sub, GF.elementFromExp]
    have h2 : divC gf 0 y = 0 := by
      unfold divC; rw [h1]; rfl
    rw [h1, h2]
    exact ⟨rfl, ⟨le_refl 0, by omega⟩, fun _ => rfl⟩
  · have hex : gf.element x = x := element_eq_self gf hq hx.1 hx.2
    have h1 : gf.divElements x y = some (gf.element (x - 1 - (y - 1) + 1)) := by
      unfold GF.divElements GF.elementToExp
      simp [hex, hey, hxz, hyne, PyFloat.sub, GF.elementFromExp]
    have h2 : divC gf x y = gf.element (x - 1 - (y - 1) + 1) := by
      unfold divC; rw [h1]; rfl
    rw [h1, h2]
    exact ⟨rfl, GF.element_range gf hq _, fun h => absurd h hxz⟩

/-- The cancellation `y * (x / y) = x`, valid exactly when the computed
quotient is nonzero (the `elementFromExp(-1)` quirk makes `x / y` equal
`0` when the exponent difference is `-1`; successful `divmodPoly` runs
never hit that case — a zero quotient coefficient makes the loop spin). -/
theorem divC_cancel (gf : GF) (hq : 2 ≤ gf.q) {x y : Int}
    (hx : Canon gf x) (hy : Canon gf y) (hyne : y ≠ 0)
    (hd : divC gf x y ≠ 0) : mulC gf y (divC gf x y) = x := by
  obtain ⟨hx0, hx1⟩ := hx
  obtain ⟨hy0, hy1⟩ := hy
  have hq2 : (2 : Int) ≤ (gf.q : Int) := by exact_mod_cast hq
  have hxz : x ≠ 0 := by
    intro h
    exact hd ((divElements_of_canon gf hq ⟨hx0, hx1⟩ ⟨hy0, hy1⟩ hyne).2.2 h)
  have hex : gf.element x = x := element_eq_self gf hq hx0 hx1
  have hey : gf.element y = y := element_eq_self gf hq hy0 hy1
  have hdval : divC gf x y = gf.element (x - y + 1) := by
    have h1 : gf.divElements x y =
        some (gf.element (x - 1 - (y - 1) + 1)) := by
      unfold GF.divElements GF.elementToExp
      simp [hex, hey, hxz, hyne, PyFloat.sub, GF.elementFromExp]
    unfold divC
    rw [h1, Option.getD_some]
    congr 1
    ring
  set n : Int := (gf.q : Int) - 1 with hn
  have hnpos : 0 < n := by omega
  have harg : x - y + 1 ≠ 0 := by
    intro h
    rw [hdval, h, GF.element_zero] at hd
    exact hd rfl
  have hdform : divC gf x y = ((x - y) % n) + 1 := by
    rw [hdval, GF.element_of_ne_zero gf harg]
    congr 2
    ring
  have hdnn := Int.emod_nonneg (x - y) (by omega : n ≠ 0)
  have hdlt := Int.emod_lt_of_pos (x - y) hnpos
  have hdcanon : Canon gf (divC gf x y) := by
    unfold Canon
    rw [hdform]
    omega
  rw [mulC_of_canon_ne gf hq ⟨hy0, hy1⟩ hyne hdcanon hd, hdform]
  have harg2 : y + (((x - y) % n) + 1) - 1 ≠ 0 := by omega
  rw [GF.element_of_ne_zero gf harg2]
  have hstep : ((y - 1) + (x - y) % n) % n = (x - 1) % n := by
    rw [Int.add_emod (y - 1) ((x - y) % n),
      Int.emod_emod_of_dvd _ (dvd_refl n), ← Int.add_emod]
    congr 1
    ring
  rw [show y + ((x - y) % n + 1) - 1 - 1 = (y - 1) + (x - y) % n by ring,
    hstep, Int.emod_eq_of_lt (by omega) (by omega)]
  omega

/-! ### The coefficient view and canonical sums -/

/-- Coefficient `i` of a vector (`0` beyond the end — numpy vectors denote
polynomials, so missing high coefficients are zero). -/
def co (l : List Int) (i : Nat) : Int := l.getD i 0

/-- Fold a list of field elements with `addC` (the field sum, in list
order). -/
def bigAdd (gf : GF) (l : List Int) : Int := l.foldl (addC gf) 0

/-- The convolution coefficient `Σ_{i} f i * g (k - i)` over the field,
folded in increasing `i` — the semantic value `multPoly` computes at
position `k`. -/
def mulSem (gf : GF) (f g : Nat → Int) (k : Nat) : Int :=
  bigAdd gf ((List.range (k + 1)).map (fun i => mulC gf (f i) (g (k - i))))

theorem co_canon {gf : GF} (L : GFLaws gf) {l : List Int}
    (hl : CanonL gf l) (i : Nat) : Canon gf (co l i) := by
  unfold co
  by_cases h : i < l.length
  · rw [List.getD_eq_getElem _ _ h]
    exact hl _ (List.getElem_mem h)
  · rw [List.getD_eq_default _ _ (by omega)]
    exact canon_zero L

theorem co_eq_zero_of_degree_lt {l : List Int} {i : Nat}
    (h : degree l < i) : co l i = 0 :=
  getD_eq_zero_of_degree_lt h

theorem foldl_addC_canon {gf : GF} (L : GFLaws gf) :
    ∀ (l : List Int) (acc : Int), Canon gf acc → CanonL gf l →
      Canon gf (l.foldl (addC gf) acc) := by
  intro l
  induction l with
  | nil => intro acc hacc _; exact hacc
  | cons x xs ih =>
    intro acc hacc hl
    rw [List.foldl_cons]
    exact ih _ (laws_addC_canon L hacc (hl x (by simp)))
      (fun y hy => hl y (by simp [hy]))

theorem bigAdd_canon {gf : GF} (L : GFLaws gf) {l : List Int}
    (hl : CanonL gf l) : Canon gf (bigAdd gf l) :=
  foldl_addC_canon L l 0 (canon_zero L) hl

theorem foldl_addC_eq {gf : GF} (L : GFLaws gf) :
    ∀ (l : List Int) (acc : Int), Canon gf acc → CanonL gf l →
      l.foldl (addC gf) acc = addC gf acc (bigAdd gf l) := by
  intro l
  induction l with
  | nil =>
    intro acc hacc _
    exact (laws_addC_zero_right L hacc).symm
  | cons x xs ih =>
    intro acc hacc hl
    have hx : Canon gf x := hl x (by simp)
    have hxs : CanonL gf xs := fun y hy => hl y (by simp [hy])
    rw [List.foldl_cons, ih _ (laws_addC_canon L hacc hx) hxs]
    have hb : Canon gf (bigAdd gf xs) := bigAdd_canon L hxs
    have h1 : bigAdd gf (x :: xs) = addC gf x (bigAdd gf xs) := by
      unfold bigAdd
      rw [List.foldl_cons, ih _ (laws_addC_canon L (canon_zero L) hx) hxs,
        laws_addC_zero_left L hx]
      rfl
    rw [h1, laws_addC_assoc L hacc hx hb]

theorem bigAdd_cons {gf : GF} (L : GFLaws gf) {x : Int} {l : List Int}
    (hx : Canon gf x) (hl : CanonL gf l) :
    bigAdd gf (x :: l) = addC gf x (bigAdd gf l) := by
  unfold bigAdd
  rw [List.foldl_cons, foldl_addC_eq L l _ (laws_addC_canon L (canon_zero L) hx) hl,
    laws_addC_zero_left L hx]
  rfl

theorem bigAdd_append {gf : GF} (L : GFLaws gf) {l1 l2 : List Int}
    (h1 : CanonL gf l1) (h2 : CanonL gf l2) :
    bigAdd gf (l1 ++ l2) = addC gf (bigAdd gf l1) (bigAdd gf l2) := by
  unfold bigAdd
  rw [List.foldl_append]
  exact foldl_addC_eq L l2 _ (bigAdd_canon L h1) h2

theorem bigAdd_all_zero {gf : GF} (L : GFLaws gf) :
    ∀ {l : List Int}, (∀ x ∈ l, x = 0) → bigAdd gf l = 0 := by
  have aux : ∀ (l : List Int), (∀ x ∈ l, x = 0) →
      l.foldl (addC gf) 0 = 0 := by
    intro l
    induction l with
    | nil => intro _; rfl
    | cons x xs ih =>
      intro h
      rw [List.foldl_cons, h x (by simp),
        laws_addC_zero_right L (canon_zero L)]
      exact ih fun y hy => h y (by simp [hy])
  intro l h
  exact aux l h

theorem bigAdd_singleton {gf : GF} (L : GFLaws gf) {x : Int}
    (hx : Canon gf x) : bigAdd gf [x] = x := by
  unfold bigAdd
  rw [List.foldl_cons, List.foldl_nil, laws_addC_zero_left L hx]

theorem bigAdd_reverse {gf : GF} (L : GFLaws gf) :
    ∀ {l : List Int}, CanonL gf l → bigAdd gf l.reverse = bigAdd gf l := by
  intro l
  induction l with
  | nil => intro _; rfl
  | cons x xs ih =>
    intro hl
    have hx : Canon gf x := hl x (by simp)
    have hxs : CanonL gf xs := fun y hy => hl y (by simp [hy])
    have hrev : CanonL gf xs.reverse := fun y hy => hxs y (by simp_all)
    rw [List.reverse_cons, bigAdd_append L hrev (fun y hy => by
        simp at hy; subst hy; exact hx),
      bigAdd_singleton L hx, ih hxs, bigAdd_cons L hx hxs,
      laws_addC_comm L (bigAdd_canon L hxs) hx]

/-- `(x + y) + (z + w) = (x + z) + (y + w)` for canonical elements. -/
theorem laws_addC_four {gf : GF} (L : GFLaws gf) {x y z w : Int}
    (hx : Canon gf x) (hy : Canon gf y) (hz : Canon gf z)
    (hw : Canon gf w) :
    addC gf (addC gf x y) (addC gf z w) =
      addC gf (addC gf x z) (addC gf y w) := by
  rw [laws_addC_assoc L hx hy (laws_addC_canon L hz hw),
    ← laws_addC_assoc L hy hz hw,
    laws_addC_comm L hy hz,
    laws_addC_assoc L hz hy hw,
    ← laws_addC_assoc L hx hz (laws_addC_canon L hy hw)]

theorem bigAdd_map_addC {gf : GF} (L : GFLaws gf) {t1 t2 : Nat → Int} :
    ∀ (l : List Nat), (∀ i ∈ l, Canon gf (t1 i)) →
      (∀ i ∈ l, Canon gf (t2 i)) →
      bigAdd gf (l.map (fun i => addC gf (t1 i) (t2 i))) =
        addC gf (bigAdd gf (l.map t1)) (bigAdd gf (l.map t2)) := by
  intro l
  induction l with
  | nil =>
    intro _ _
    exact (laws_addC_zero_right L (canon_zero L)).symm
  | cons i l ih =>
    intro h1 h2
    have h1i : Canon gf (t1 i) := h1 i (by simp)
    have h2i : Canon gf (t2 i) := h2 i (by simp)
    have h1l : ∀ j ∈ l, Canon gf (t1 j) := fun j hj => h1 j (by simp [hj])
    have h2l : ∀ j ∈ l, Canon gf (t2 j) := fun j hj => h2 j (by simp [hj])
    have c1 : CanonL gf (l.map t1) := by
      intro x hx
      rcases List.mem_map.mp hx with ⟨j, hj, rfl⟩
      exact h1l j hj
    have c2 : CanonL gf (l.map t2) := by
      intro x hx
      rcases List.mem_map.mp hx with ⟨j, hj, rfl⟩
      exact h2l j hj
    have cc : CanonL gf (l.map (fun i => addC gf (t1 i) (t2 i))) := by
      intro x hx
      rcases List.mem_map.mp hx with ⟨j, hj, rfl⟩
      exact laws_addC_canon L (h1l j hj) (h2l j hj)
    rw [List.map_cons, List.map_cons, List.map_cons,
      bigAdd_cons L (laws_addC_canon L h1i h2i) cc,
      bigAdd_cons L h1i c1, bigAdd_cons L h2i c2,
      ih h1l h2l,
      laws_addC_four L h1i h2i (bigAdd_canon L c1) (bigAdd_canon L c2)]

theorem foldl_addC_filter {gf : GF} (L : GFLaws gf) {t : Nat → Int}
    {p : Nat → Bool} :
    ∀ (l : List Nat) (c : Int), Canon gf c →
      (∀ i ∈ l, Canon gf (t i)) →
      (∀ i ∈ l, p i = false → t i = 0) →
      ((l.filter p).map t).foldl (addC gf) c = (l.map t).foldl (addC gf) c := by
  intro l
  induction l with
  | nil => intro c _ _ _; rfl
  | cons i l ih =>
    intro c hc hcanon hz
    have hci : Canon gf (t i) := hcanon i (by simp)
    have hcl : ∀ j ∈ l, Canon gf (t j) := fun j hj => hcanon j (by simp [hj])
    have hzl : ∀ j ∈ l, p j = false → t j = 0 := fun j hj => hz j (by simp [hj])
    by_cases hp : p i = true
    · rw [List.filter_cons_of_pos hp, List.map_cons, List.map_cons,
        List.foldl_cons, List.foldl_cons]
      exact ih _ (laws_addC_canon L hc hci) hcl hzl
    · rw [List.filter_cons_of_neg (by simpa using hp), List.map_cons,
        List.foldl_cons, hz i (by simp) (by simpa using hp),
        laws_addC_zero_right L hc]
      exact ih _ hc hcl hzl

theorem range_filter_beq (j : Nat) :
    ∀ (n : Nat), (List.range n).filter (fun i => i == j) =
      if j < n then [j] else [] := by
  intro n
  induction n with
  | zero => simp
  | succ n ih =>
    rw [List.range_succ, List.filter_append, ih]
    by_cases h2 : n = j
    · subst h2
      rw [if_neg (by omega), if_pos (by omega)]
      simp
    · have hnil : List.filter (fun i => i == j) [n] = [] := by
        simp [h2]
      rw [hnil, List.append_nil]
      by_cases h1 : j < n
      · rw [if_pos h1, if_pos (by omega)]
      · rw [if_neg h1, if_neg (by omega)]

theorem mulSem_canon {gf : GF} (L : GFLaws gf) (f g : Nat → Int) (k : Nat) :
    Canon gf (mulSem gf f g k) := by
  apply bigAdd_canon L
  intro x hx
  rcases List.mem_map.mp hx with ⟨i, _, rfl⟩
  exact mulC_canon gf (laws_q L) _ _

theorem mulSem_zero_fun {gf : GF} (L : GFLaws gf) {f : Nat → Int}
    (hf : ∀ i, f i = 0) (g : Nat → Int) (k : Nat) : mulSem gf f g k = 0 := by
  apply bigAdd_all_zero L
  intro x hx
  rcases List.mem_map.mp hx with ⟨i, _, rfl⟩
  rw [hf i]
  exact mulC_zero_left gf _

theorem mulSem_comm {gf : GF} (L : GFLaws gf) (f g : Nat → Int) (k : Nat) :
    mulSem gf f g k = mulSem gf g f k := by
  have hcl : CanonL gf ((List.range (k + 1)).map
      (fun i => mulC gf (f i) (g (k - i)))) := by
    intro x hx
    rcases List.mem_map.mp hx with ⟨i, _, rfl⟩
    exact mulC_canon gf (laws_q L) _ _
  have hrev : ((List.range (k + 1)).map
      (fun i => mulC gf (f i) (g (k - i)))).reverse =
      (List.range (k + 1)).map (fun i => mulC gf (g i) (f (k - i))) := by
    apply List.ext_getElem
    · simp
    · intro n h1 h2
      have hn : n ≤ k := by
        simp only [List.length_map, List.length_range] at h2
        omega
      rw [List.getElem_reverse]
      simp only [List.getElem_map, List.getElem_range, List.length_map,
        List.length_range]
      rw [show k + 1 - 1 - n = k - n by omega, show k - (k - n) = n by omega,
        mulC_comm]
  unfold mulSem
  rw [← bigAdd_reverse L hcl, hrev]

theorem mulSem_addC_left {gf : GF} (L : GFLaws gf) (f1 f2 g : Nat → Int)
    (h1 : ∀ i, Canon gf (f1 i)) (h2 : ∀ i, Canon gf (f2 i))
    (hg : ∀ i, Canon gf (g i)) (k : Nat) :
    mulSem gf (fun i => addC gf (f1 i) (f2 i)) g k =
      addC gf (mulSem gf f1 g k) (mulSem gf f2 g k) := by
  unfold mulSem
  have hcongr : (List.range (k + 1)).map
      (fun i => mulC gf (addC gf (f1 i) (f2 i)) (g (k - i))) =
      (List.range (k + 1)).map (fun i =>
        addC gf (mulC gf (f1 i) (g (k - i))) (mulC gf (f2 i) (g (k - i)))) := by
    apply List.map_congr_left
    intro i _
    rw [mulC_comm, laws_distrib L (h1 i) (h2 i) (hg (k - i)),
      mulC_comm gf (g (k - i)) (f1 i), mulC_comm gf (g (k - i)) (f2 i)]
  rw [hcongr]
  exact bigAdd_map_addC L (List.range (k + 1))
    (fun i _ => mulC_canon gf (laws_q L) _ _)
    (fun i _ => mulC_canon gf (laws_q L) _ _)

theorem mulSem_single {gf : GF} (L : GFLaws gf) {f g : Nat → Int} {k j : Nat}
    (hj : j ≤ k)
    (hz : ∀ i, i ≤ k → i ≠ j → mulC gf (f i) (g (k - i)) = 0) :
    mulSem gf f g k = mulC gf (f j) (g (k - j)) := by
  unfold mulSem bigAdd
  have h1 := foldl_addC_filter (p := fun i => i == j)
    (t := fun i => mulC gf (f i) (g (k - i))) L (List.range (k + 1)) 0
    (canon_zero L) (fun i _ => mulC_canon gf (laws_q L) _ _)
    (fun i hi hpf => hz i (by simp at hi; omega) (by simpa using hpf))
  rw [← h1, range_filter_beq, if_pos (by omega)]
  simp only [List.map_cons, List.map_nil, List.foldl_cons, List.foldl_nil]
  exact laws_addC_zero_left L (mulC_canon gf (laws_q L) _ _)

theorem mulSem_top {gf : GF} (L : GFLaws gf) {f g : Nat → Int} {df dg : Nat}
    (hf : ∀ i, df < i → f i = 0) (hg : ∀ j, dg < j → g j = 0) :
    mulSem gf f g (df + dg) = mulC gf (f df) (g dg) := by
  have h := mulSem_single L (f := f) (g := g) (k := df + dg) (j := df)
    (by omega) (fun i hik hne => by
      rcases Nat.lt_or_ge df i with hlt | hge
      · rw [hf i hlt]
        exact mulC_zero_left gf _
      · have h2 : dg < df + dg - i := by omega
        rw [hg _ h2]
        exact mulC_zero_right gf _)
  rw [h, show df + dg - df = dg by omega]

theorem mulSem_zero_of_gt {gf : GF} (L : GFLaws gf) {f g : Nat → Int}
    {df dg k : Nat} (hf : ∀ i, df < i → f i = 0)
    (hg : ∀ j, dg < j → g j = 0) (hk : df + dg < k) :
    mulSem gf f g k = 0 := by
  apply bigAdd_all_zero L
  intro x hx
  rcases List.mem_map.mp hx with ⟨i, hi, rfl⟩
  rcases Nat.lt_or_ge df i with hlt | hge
  · rw [hf i hlt]
    exact mulC_zero_left gf _
  · have h2 : dg < k - i := by omega
    rw [hg _ h2]
    exact mulC_zero_right gf _

/-! ### `mapM` inversion and the semantics of `addPoly` -/

theorem mapM_option_spec (f : Nat → Option Int) :
    ∀ (l : List Nat), (∀ i ∈ l, (f i).isSome) →
      ∃ res, l.mapM f = some res ∧ res.length = l.length ∧
        ∀ (k : Nat) (hk : k < l.length) (hk2 : k < res.length),
          f (l.get ⟨k, hk⟩) = some (res.get ⟨k, hk2⟩) := by
  intro l
  induction l with
  | nil =>
    exact fun _ => ⟨[], rfl, rfl, fun k hk => absurd hk (by simp)⟩
  | cons a l ih =>
    intro h
    have ha : (f a).isSome := h a (by simp)
    obtain ⟨v, hv⟩ := Option.isSome_iff_exists.mp ha
    obtain ⟨res, hres, hlen, hent⟩ := ih (fun i hi => h i (by simp [hi]))
    refine ⟨v :: res, ?_, by simp [hlen], ?_⟩
    · rw [List.mapM_cons, hv, hres]
      rfl
    · intro k hk hk2
      cases k with
      | zero => simpa using hv
      | succ k =>
        simpa using hent k (by simpa using hk) (by simpa using hk2)

theorem addPolyEntry_spec {gf : GF} (L : GFLaws gf) {a b : List Int}
    (ha : CanonL gf a) (hb : CanonL gf b) (hne : ¬(a = [] ∧ b = []))
    {i : Nat} (hi : i ≤ max (degree a) (degree b)) :
    gf.addPolyEntry a b i = some (addC gf (co a i) (co b i)) := by
  unfold GF.addPolyEntry
  by_cases h1 : a.length ≤ i
  · rw [if_pos h1]
    have hib : i < b.length := by
      by_cases haz : a = []
      · have hbz : b ≠ [] := fun hb0 => hne ⟨haz, hb0⟩
        subst haz
        have hd := degree_lt_length hbz
        simp only [degree_nil] at hi
        omega
      · have hda := degree_lt_length haz
        have hidb : i ≤ degree b := by omega
        have hbz : b ≠ [] := by
          intro hb0
          subst hb0
          simp only [degree_nil] at hidb
          omega
        have := degree_lt_length hbz
        omega
    have hcoa : co a i = 0 := List.getD_eq_default _ _ h1
    have hcob : co b i = b[i] := List.getD_eq_getElem _ _ hib
    rw [hcoa, hcob, laws_addC_zero_left L (hb _ (List.getElem_mem hib)),
      List.get?_eq_getElem?, List.getElem?_eq_getElem hib]
  · rw [if_neg h1]
    by_cases h2 : b.length ≤ i
    · rw [if_pos h2]
      have hia : i < a.length := by omega
      have hcob : co b i = 0 := List.getD_eq_default _ _ h2
      have hcoa : co a i = a[i] := List.getD_eq_getElem _ _ hia
      rw [hcoa, hcob, laws_addC_zero_right L (ha _ (List.getElem_mem hia)),
        List.get?_eq_getElem?, List.getElem?_eq_getElem hia]
    · rw [if_neg h2]
      have hia : i < a.length := by omega
      have hib : i < b.length := by omega
      have hcoa : co a i = a[i] := List.getD_eq_getElem _ _ hia
      have hcob : co b i = b[i] := List.getD_eq_getElem _ _ hib
      rw [List.get?_eq_getElem?, List.getElem?_eq_getElem hia,
        List.get?_eq_getElem?, List.getElem?_eq_getElem hib]
      simp only [Option.bind_eq_bind, Option.some_bind]
      rw [laws_addE L (ha _ (List.getElem_mem hia)) (hb _ (List.getElem_mem hib)),
        hcoa, hcob]

/-- Semantics of `addPoly` on vectors of canonical coefficients: it
succeeds (unless both arguments are the empty vector), its result has
length `max(degree a, degree b) + 1`, canonical coefficients, and is the
pointwise field sum. -/
theorem addPoly_spec {gf : GF} (L : GFLaws gf) {a b : List Int}
    (ha : CanonL gf a) (hb : CanonL gf b) (hne : ¬(a = [] ∧ b = [])) :
    ∃ c, gf.addPoly a b = some c ∧ CanonL gf c ∧
      c.length = max (degree a) (degree b) + 1 ∧
      ∀ k, co c k = addC gf (co a k) (co b k) := by
  obtain ⟨res, hres, hlen, hent⟩ := mapM_option_spec (gf.addPolyEntry a b)
    (List.range (max (degree a) (degree b) + 1))
    (fun i hi => by
      rw [addPolyEntry_spec L ha hb hne (by simp at hi; omega)]
      rfl)
  have hlen2 : res.length = max (degree a) (degree b) + 1 := by
    simpa using hlen
  have hentry : ∀ (k : Nat) (hk : k < res.length),
      res.get ⟨k, hk⟩ = addC gf (co a k) (co b k) := by
    intro k hk
    have hk2 : k < (List.range (max (degree a) (degree b) + 1)).length := by
      simpa using hk.trans_le (le_of_eq hlen2)
    have := hent k hk2 hk
    have hkval : (List.range (max (degree a) (degree b) + 1)).get ⟨k, hk2⟩ = k := by
      simp [List.get_eq_getElem, List.getElem_range]
    rw [hkval, addPolyEntry_spec L ha hb hne (by
      have := hk2
      simp at this
      omega)] at this
    exact (Option.some_inj.mp this).symm
  refine ⟨res, hres, ?_, hlen2, ?_⟩
  · intro x hx
    rcases List.mem_iff_get.mp hx with ⟨⟨k, hk⟩, rfl⟩
    rw [hentry k hk]
    exact laws_addC_canon L (co_canon L ha k) (co_canon L hb k)
  · intro k
    by_cases hk : k < res.length
    · have h := hentry k hk
      unfold co at h ⊢
      rw [List.getD_eq_getElem _ _ hk]
      rw [List.get_eq_getElem] at h
      exact h
    · have hk2 : max (degree a) (degree b) < k := by omega
      have hca : co a k = 0 := co_eq_zero_of_degree_lt (by omega)
      have hcb : co b k = 0 := co_eq_zero_of_degree_lt (by omega)
      rw [hca, hcb, laws_addC_zero_right L (canon_zero L)]
      unfold co
      exact List.getD_eq_default _ _ (by omega)

/-! ### Semantics of `multPoly` -/

theorem co_trim (p : List Int) (k : Nat) : co (trim p) k = co p k := by
  unfold co
  rw [trim_getD]
  by_cases h : k ≤ degree p
  · rw [if_pos h]
  · rw [if_neg h]
    exact (getD_eq_zero_of_degree_lt (by omega)).symm

theorem co_replicate_zero (n k : Nat) : co (List.replicate n (0 : Int)) k = 0 := by
  unfold co
  by_cases h : k < n
  · rw [List.getD_eq_getElem _ _ (by simpa using h)]
    exact List.getElem_replicate _ _
  · exact List.getD_eq_default _ _ (by simpa using h)

theorem canonL_set {gf : GF} {l : List Int} {n : Nat} {v : Int}
    (hl : CanonL gf l) (hv : Canon gf v) : CanonL gf (l.set n v) := by
  intro x hx
  rcases List.mem_or_eq_of_mem_set hx with h | h
  · exact hl x h
  · subst h; exact hv

theorem co_set_self {l : List Int} {n : Nat} {v : Int} (h : n < l.length) :
    co (l.set n v) n = v := by
  unfold co
  rw [List.getD_eq_getElem _ _ (by simpa using h)]
  exact List.getElem_set_self _

theorem co_set_ne {l : List Int} {n k : Nat} {v : Int} (h : n ≠ k) :
    co (l.set n v) k = co l k := by
  unfold co
  by_cases hk : k < l.length
  · rw [List.getD_eq_getElem _ _ (by simpa using hk),
      List.getD_eq_getElem _ _ hk]
    exact List.getElem_set_ne h _
  · rw [List.getD_eq_default _ _ (by simpa using hk),
      List.getD_eq_default _ _ (by omega)]

theorem multPolyInner_run {gf : GF} (L : GFLaws gf) {a b : List Int}
    (ha : CanonL gf a) (hb : CanonL gf b) {i : Nat} (hia : i < a.length) :
    ∀ (js : List Nat) (prod : List Int), js.Nodup → CanonL gf prod →
      (∀ j ∈ js, j < b.length) → (∀ j ∈ js, i + j < prod.length) →
      ∃ res, js.foldlM (gf.multPolyInner a b i) prod = some res ∧
        CanonL gf res ∧ res.length = prod.length ∧
        ∀ k, co res k =
          if ∃ j ∈ js, i + j = k then
            addC gf (co prod k) (mulC gf (co a i) (co b (k - i)))
          else co prod k := by
  intro js
  induction js with
  | nil =>
    intro prod _ hcp _ _
    exact ⟨prod, rfl, hcp, rfl, fun k => by simp⟩
  | cons j js ih =>
    intro prod hnd hcp hjb hjp
    have hjb1 : j < b.length := hjb j (by simp)
    have hjp1 : i + j < prod.length := hjp j (by simp)
    have hcoa : co a i = a[i] := List.getD_eq_getElem _ _ hia
    have hcob : co b j = b[j] := List.getD_eq_getElem _ _ hjb1
    have hcop : co prod (i + j) = prod[i + j] := List.getD_eq_getElem _ _ hjp1
    have hcanT : Canon gf (mulC gf (co a i) (co b j)) :=
      mulC_canon gf (laws_q L) _ _
    have hstep : gf.multPolyInner a b i prod j =
        some (prod.set (i + j)
          (addC gf (co prod (i + j)) (mulC gf (co a i) (co b j)))) := by
      unfold GF.multPolyInner
      rw [List.get?_eq_getElem?, List.getElem?_eq_getElem hia,
        List.get?_eq_getElem?, List.getElem?_eq_getElem hjb1]
      simp only [Option.bind_eq_bind, Option.some_bind]
      rw [multElements_eq_mulC]
      simp only [Option.some_bind]
      rw [List.get?_eq_getElem?, List.getElem?_eq_getElem hjp1]
      simp only [Option.some_bind]
      rw [← hcoa, ← hcob, ← hcop,
        laws_addE L (by rw [hcop]; exact hcp _ (List.getElem_mem hjp1)) hcanT]
      rfl
    set v := addC gf (co prod (i + j)) (mulC gf (co a i) (co b j)) with hv
    have hcanv : Canon gf v :=
      laws_addC_canon L (co_canon L hcp _) hcanT
    have hcp1 : CanonL gf (prod.set (i + j) v) := canonL_set hcp hcanv
    obtain ⟨res, hres, hcres, hlres, hco⟩ := ih (prod.set (i + j) v)
      (List.Nodup.of_cons hnd) hcp1 (fun j2 hj2 => hjb j2 (by simp [hj2]))
      (fun j2 hj2 => by
        rw [List.length_set]
        exact hjp j2 (by simp [hj2]))
    refine ⟨res, ?_, hcres, by rw [hlres, List.length_set], ?_⟩
    · rw [List.foldlM_cons, hstep]
      simpa using hres
    · intro k
      rw [hco k]
      have hjnotin : j ∉ js := (List.nodup_cons.mp hnd).1
      by_cases hk1 : k = i + j
      · subst hk1
        have hnex : ¬ ∃ j2 ∈ js, i + j2 = i + j := by
          rintro ⟨j2, hj2, he⟩
          have : j2 = j := by omega
          subst this
          exact hjnotin hj2
        rw [if_neg hnex, if_pos ⟨j, by simp, rfl⟩,
          co_set_self hjp1, hv, show i + j - i = j by omega]
      · by_cases hk2 : ∃ j2 ∈ js, i + j2 = k
        · rw [if_pos hk2, if_pos (by
            rcases hk2 with ⟨j2, hj2, he⟩
            exact ⟨j2, by simp [hj2], he⟩)]
          rw [co_set_ne (by omega)]
        · rw [if_neg hk2, if_neg (by
            rintro ⟨j2, hj2, he⟩
            rcases List.mem_cons.mp hj2 with h | h
            · subst h; exact hk1 he.symm
            · exact hk2 ⟨j2, h, he⟩)]
          rw [co_set_ne (by omega)]

theorem multPolyOuter_run {gf : GF} (L : GFLaws gf) {a b : List Int}
    (ha : CanonL gf a) (hb : CanonL gf b) (hbne : b ≠ []) :
    ∀ (is : List Nat) (prod : List Int), CanonL gf prod →
      (∀ i ∈ is, i < a.length) →
      (∀ i ∈ is, i + degree b < prod.length) →
      ∃ res, is.foldlM (gf.multPolyOuter a b) prod = some res ∧
        CanonL gf res ∧ res.length = prod.length ∧
        ∀ k, co res k = List.foldl (addC gf) (co prod k)
          ((is.filter (fun i => decide (i ≤ k) && decide (k - i ≤ degree b))).map
            (fun i => mulC gf (co a i) (co b (k - i)))) := by
  intro is
  induction is with
  | nil =>
    intro prod hcp _ _
    exact ⟨prod, rfl, hcp, rfl, fun k => by simp⟩
  | cons i is ih =>
    intro prod hcp hisa hisp
    have hia : i < a.length := hisa i (by simp)
    have hip : i + degree b < prod.length := hisp i (by simp)
    obtain ⟨prod1, hprod1, hcp1, hlen1, hco1⟩ := multPolyInner_run L ha hb hia
      (List.range (degree b + 1)) prod (List.nodup_range _) hcp
      (fun j hj => by
        have := degree_lt_length hbne
        simp at hj
        omega)
      (fun j hj => by
        simp at hj
        omega)
    obtain ⟨res, hres, hcres, hlres, hco⟩ := ih prod1 hcp1
      (fun i2 hi2 => hisa i2 (by simp [hi2]))
      (fun i2 hi2 => by
        rw [hlen1]
        exact hisp i2 (by simp [hi2]))
    refine ⟨res, ?_, hcres, by rw [hlres, hlen1], ?_⟩
    · rw [List.foldlM_cons]
      unfold GF.multPolyOuter
      rw [hprod1]
      simpa using hres
    · intro k
      rw [hco k]
      have hcond : (∃ j ∈ List.range (degree b + 1), i + j = k) ↔
          (i ≤ k ∧ k - i ≤ degree b) := by
        constructor
        · rintro ⟨j, hj, rfl⟩
          simp at hj
          omega
        · rintro ⟨h1, h2⟩
          exact ⟨k - i, by simp; omega, by omega⟩
      by_cases hpk : i ≤ k ∧ k - i ≤ degree b
      · rw [List.filter_cons_of_pos (by
          simp only [Bool.and_eq_true, decide_eq_true_eq]
          exact hpk)]
        rw [List.map_cons, List.foldl_cons, hco1 k, if_pos (hcond.mpr hpk)]
      · rw [List.filter_cons_of_neg (by
          simp only [Bool.and_eq_true, decide_eq_true_eq]
          exact hpk)]
        rw [hco1 k, if_neg (fun h => hpk (hcond.mp h))]

theorem filter_range_shrink {P : Nat → Bool} {n N : Nat} (h : n ≤ N)
    (hP : ∀ i, n ≤ i → P i = false) :
    (List.range N).filter P = (List.range n).filter P := by
  have hN : N = n + (N - n) := by omega
  rw [hN, List.range_add, List.filter_append]
  have h2 : (List.map (fun x => n + x) (List.range (N - n))).filter P = [] := by
    rw [List.filter_eq_nil_iff]
    intro x hx
    rcases List.mem_map.mp hx with ⟨y, _, rfl⟩
    rw [hP _ (by omega)]
    simp
  rw [h2, List.append_nil]

/-- The central characterization: `multPoly` on nonempty canonical
vectors succeeds, returns a trimmed vector of canonical coefficients
whose coefficient view is exactly the field convolution `mulSem`. -/
theorem multPoly_spec {gf : GF} (L : GFLaws gf) {a b : List Int}
    (ha : CanonL gf a) (hb : CanonL gf b) (hane : a ≠ []) (hbne : b ≠ []) :
    ∃ c, gf.multPoly a b = some c ∧ CanonL gf c ∧
      c.length = degree c + 1 ∧ degree c ≤ degree a + degree b ∧
      ∀ k, co c k = mulSem gf (co a) (co b) k := by
  have hda := degree_lt_length hane
  have hdb := degree_lt_length hbne
  obtain ⟨res, hres, hcres, hlres, hco⟩ := multPolyOuter_run L ha hb hbne
    (List.range (degree a + 1))
    (List.replicate (degree a + degree b + 1) 0)
    (fun x hx => by
      rcases List.eq_of_mem_replicate hx with rfl
      exact canon_zero L)
    (fun i hi => by simp at hi; omega)
    (fun i hi => by simp at hi; simp; omega)
  have hcoval : ∀ k, co res k = mulSem gf (co a) (co b) k := by
    intro k
    rw [hco k]
    have hinit : co (List.replicate (degree a + degree b + 1) (0 : Int)) k = 0 :=
      co_replicate_zero _ _
    rw [hinit]
    set P : Nat → Bool := fun i =>
      decide (i ≤ degree a) && decide (i ≤ k) && decide (k - i ≤ degree b)
      with hP
    have hPa : (List.range (degree a + 1)).filter
        (fun i => decide (i ≤ k) && decide (k - i ≤ degree b)) =
        (List.range (degree a + 1)).filter P := by
      apply List.filter_congr
      intro i hi
      simp only [List.mem_range] at hi
      simp only [hP, Bool.and_eq_true, decide_eq_true_eq,
        decide_eq_true_eq]
      by_cases h1 : i ≤ k ∧ k - i ≤ degree b
      · simp [h1.1, h1.2, show i ≤ degree a by omega]
      · rcases Decidable.not_and_iff_or_not.mp h1 with h | h <;>
          simp [h, show i ≤ degree a by omega]
    have hPk : (List.range (k + 1)).filter
        (fun i => decide (i ≤ degree a) && decide (k - i ≤ degree b)) =
        (List.range (k + 1)).filter P := by
      apply List.filter_congr
      intro i hi
      simp only [List.mem_range] at hi
      simp only [hP, Bool.and_eq_true, decide_eq_true_eq,
        decide_eq_true_eq]
      by_cases h1 : i ≤ degree a ∧ k - i ≤ degree b
      · simp [h1.1, h1.2, show i ≤ k by omega]
      · rcases Decidable.not_and_iff_or_not.mp h1 with h | h <;>
          simp [h, show i ≤ k by omega]
    have hM1 : (List.range (max (degree a + 1) (k + 1))).filter P =
        (List.range (degree a + 1)).filter P :=
      filter_range_shrink (by omega) (fun i hi => by
        simp only [hP]
        have : ¬ i ≤ degree a := by omega
        simp [this])
    have hM2 : (List.range (max (degree a + 1) (k + 1))).filter P =
        (List.range (k + 1)).filter P :=
      filter_range_shrink (by omega) (fun i hi => by
        simp only [hP]
        have : ¬ i ≤ k := by omega
        simp [this])
    have hfull : mulSem gf (co a) (co b) k = List.foldl (addC gf) 0
        (((List.range (k + 1)).filter
          (fun i => decide (i ≤ degree a) && decide (k - i ≤ degree b))).map
          (fun i => mulC gf (co a i) (co b (k - i)))) := by
      unfold mulSem bigAdd
      rw [foldl_addC_filter L (List.range (k + 1)) 0 (canon_zero L)
        (fun i _ => mulC_canon gf (laws_q L) _ _)
        (fun i hi hf => by
          simp only [Bool.and_eq_false_iff, decide_eq_false_iff_not] at hf
          rcases hf with h | h
          · rw [co_eq_zero_of_degree_lt (by omega)]
            exact mulC_zero_left gf _
          · rw [co_eq_zero_of_degree_lt (i := k - i) (by omega)]
            exact mulC_zero_right gf _)]
    rw [hfull, hPa, hPk, ← hM1, hM2]
  have hlen : res.length = degree a + degree b + 1 := by
    rw [hlres]
    simp
  have hresne : res ≠ [] := by
    intro h
    rw [h] at hlen
    simp at hlen
  have hfinal : gf.multPoly a b = some (trim res) := by
    unfold GF.multPoly
    rw [hres]
    rfl
  refine ⟨trim res, hfinal, ?_, ?_, ?_, ?_⟩
  · intro x hx
    exact hcres x (List.take_subset _ _ hx)
  · rw [trim_length hresne, degree_trim]
  · have := degree_lt_length hresne
    rw [degree_trim]
    omega
  · intro k
    rw [co_trim, hcoval k]

/-! ### Semantics of one `divmodPoly` loop iteration -/

theorem multPoly_lead {gf : GF} (L : GFLaws gf) {a b : List Int}
    (ha : CanonL gf a) (hb : CanonL gf b) (hane : a ≠ []) (hbne : b ≠ [])
    (hla : co a (degree a) ≠ 0) (hlb : co b (degree b) ≠ 0) :
    ∃ c, gf.multPoly a b = some c ∧ CanonL gf c ∧
      c.length = degree c + 1 ∧ degree c = degree a + degree b ∧
      co c (degree c) ≠ 0 ∧
      (∀ k, co c k = mulSem gf (co a) (co b) k) := by
  obtain ⟨c, hc, hcc, hlc, hdc, hco⟩ := multPoly_spec L ha hb hane hbne
  have htop : co c (degree a + degree b) =
      mulC gf (co a (degree a)) (co b (degree b)) := by
    rw [hco, mulSem_top L (fun i hi => co_eq_zero_of_degree_lt hi)
      (fun j hj => co_eq_zero_of_degree_lt hj)]
  have htopne : co c (degree a + degree b) ≠ 0 := by
    rw [htop]
    exact mulC_ne_zero gf (laws_q L) (co_canon L ha _) hla (co_canon L hb _) hlb
  have hdeg : degree c = degree a + degree b := by
    apply degree_eq_of_getD htopne
    intro i hi
    show co c i = 0
    rw [hco, mulSem_zero_of_gt L (fun i2 hi2 => co_eq_zero_of_degree_lt hi2)
      (fun j hj => co_eq_zero_of_degree_lt hj) hi]
  exact ⟨c, hc, hcc, hlc, hdeg, by rw [hdeg]; exact htopne, hco⟩

theorem mulSem_congr_left {gf : GF} {f f2 g : Nat → Int}
    (h : ∀ i, f i = f2 i) (k : Nat) :
    mulSem gf f g k = mulSem gf f2 g k := by
  unfold mulSem
  congr 1
  apply List.map_congr_left
  intro i _
  rw [h i]

/-- The multiplier vector built by one loop iteration:
`np.zeros(degree a - degree b + 1)` with the quotient coefficient at the
top. -/
def multiplierVec (da db : Nat) (d : Int) : List Int :=
  (List.replicate (da - db + 1) (0 : Int)).set (da - db) d

theorem multiplierVec_co {da db : Nat} {d : Int} (k : Nat) :
    co (multiplierVec da db d) k = if k = da - db then d else 0 := by
  unfold multiplierVec
  by_cases hk : k = da - db
  · subst hk
    rw [if_pos rfl]
    exact co_set_self (by simp)
  · rw [if_neg hk, co_set_ne (fun h => hk h.symm)]
    exact co_replicate_zero _ _

theorem multiplierVec_canon {gf : GF} (L : GFLaws gf) {da db : Nat}
    {d : Int} (hd : Canon gf d) : CanonL gf (multiplierVec da db d) :=
  canonL_set (fun x hx => by
    rcases List.eq_of_mem_replicate hx with rfl
    exact canon_zero L) hd

theorem multiplierVec_ne_nil {da db : Nat} {d : Int} :
    multiplierVec da db d ≠ [] := by
  unfold multiplierVec
  intro h
  have := congrArg List.length h
  simp at this

theorem multiplierVec_degree {da db : Nat} {d : Int} (hd : d ≠ 0) :
    degree (multiplierVec da db d) = da - db := by
  apply degree_eq_of_getD
  · show co (multiplierVec da db d) (da - db) ≠ 0
    rw [multiplierVec_co, if_pos rfl]
    exact hd
  · intro i hi
    show co (multiplierVec da db d) i = 0
    rw [multiplierVec_co, if_neg (by omega)]

theorem multiplierVec_degree_le {da db : Nat} {d : Int} :
    degree (multiplierVec da db d) ≤ da - db := by
  apply degree_le_of_getD
  intro i hi
  show co (multiplierVec da db d) i = 0
  rw [multiplierVec_co, if_neg (by omega)]

/-- One loop body in the productive case: the computed quotient
coefficient `d` is nonzero, the leading terms cancel, the degree of `a`
strictly drops, and the invariant `q·b + a` is preserved. -/
theorem divmodStep_run {gf : GF} (L : GFLaws gf) {b a q : List Int}
    (hb : CanonL gf b) (hbne : b ≠ []) (hlb : co b (degree b) ≠ 0)
    (hdb : 1 ≤ degree b)
    (ha : CanonL gf a) (hla : co a (degree a) ≠ 0)
    (hguard : degree b ≤ degree a) (hq : CanonL gf q)
    (hd : divC gf (co a (degree a)) (co b (degree b)) ≠ 0) :
    ∃ a2 q2, gf.divmodStep b a q = some (a2, q2) ∧
      CanonL gf a2 ∧ CanonL gf q2 ∧ degree a2 < degree a ∧
      (∀ k, addC gf (mulSem gf (co q2) (co b) k) (co a2 k) =
            addC gf (mulSem gf (co q) (co b) k) (co a k)) ∧
      (∀ k, co q2 k = addC gf (co q k)
        (if k = degree a - degree b then
          divC gf (co a (degree a)) (co b (degree b)) else 0)) ∧
      q2.length = max (degree q) (degree a - degree b) + 1 := by
  have hane : a ≠ [] := by
    intro h
    rw [h] at hla
    exact hla rfl
  have hdalt := degree_lt_length hane
  have hdblt := degree_lt_length hbne
  set d := divC gf (co a (degree a)) (co b (degree b)) with hdd
  obtain ⟨hdiv, hdcanon, -⟩ := divElements_of_canon gf (laws_q L)
    (co_canon L ha (degree a)) (co_canon L hb (degree b)) hlb
  set mult := multiplierVec (degree a) (degree b) d with hmult
  have hmultc : CanonL gf mult := multiplierVec_canon L hdcanon
  have hmultne : mult ≠ [] := multiplierVec_ne_nil
  have hmultdeg : degree mult = degree a - degree b := multiplierVec_degree hd
  have hmultlead : co mult (degree mult) ≠ 0 := by
    rw [hmultdeg, multiplierVec_co, if_pos rfl]
    exact hd
  obtain ⟨s, hsval, hsc, hslen, hsdeg, hslead, hsco⟩ :=
    multPoly_lead L hb hmultc hbne hmultne hlb hmultlead
  have hsdeg2 : degree s = degree a := by
    rw [hsdeg, hmultdeg]
    omega
  have hsane : s ≠ [] := by
    intro h
    rw [h] at hslen
    simp at hslen
  obtain ⟨a2, ha2val, ha2c, ha2len, ha2co⟩ :=
    addPoly_spec L ha hsc (fun h => hane h.1)
  obtain ⟨q2, hq2val, hq2c, hq2len, hq2co⟩ :=
    addPoly_spec L hq hmultc (fun h => hmultne h.2)
  have hstep : gf.divmodStep b a q = some (a2, q2) := by
    unfold GF.divmodStep
    rw [List.get?_eq_getElem?, List.getElem?_eq_getElem hdalt,
      List.get?_eq_getElem?, List.getElem?_eq_getElem hdblt]
    simp only [Option.bind_eq_bind, Option.some_bind]
    rw [show a[degree a] = co a (degree a) from
        (List.getD_eq_getElem _ _ hdalt).symm,
      show b[degree b] = co b (degree b) from
        (List.getD_eq_getElem _ _ hdblt).symm,
      hdiv]
    simp only [Option.some_bind]
    rw [show (List.replicate (degree a - degree b + 1) (0 : Int)).set
        (degree a - degree b) d = mult from rfl,
      hsval]
    simp only [Option.some_bind]
    rw [ha2val]
    simp only [Option.some_bind]
    rw [hq2val]
    rfl
  have hmulttop : co mult (degree a - degree b) = d := by
    rw [hmult, multiplierVec_co, if_pos rfl]
  have hstop : co s (degree a) = co a (degree a) := by
    calc co s (degree a) = mulSem gf (co b) (co mult) (degree a) := hsco _
      _ = mulSem gf (co b) (co mult) (degree b + (degree a - degree b)) := by
          rw [show degree b + (degree a - degree b) = degree a from by omega]
      _ = mulC gf (co b (degree b)) (co mult (degree a - degree b)) :=
          mulSem_top L (fun i hi => co_eq_zero_of_degree_lt hi)
            (fun j hj => by
              show co mult j = 0
              rw [hmult, multiplierVec_co, if_neg (by omega)])
      _ = mulC gf (co b (degree b)) d := by rw [hmulttop]
      _ = co a (degree a) :=
          divC_cancel gf (laws_q L) (co_canon L ha _) (co_canon L hb _) hlb hd
  have ha2top : co a2 (degree a) = 0 := by
    rw [ha2co (degree a), hstop, laws_addC_self L (co_canon L ha _)]
  have ha2beyond : ∀ k, degree a < k → co a2 k = 0 := by
    intro k hk
    rw [ha2co k, co_eq_zero_of_degree_lt hk,
      co_eq_zero_of_degree_lt (show degree s < k by omega),
      laws_addC_zero_right L (canon_zero L)]
  have hdega2 : degree a2 < degree a := by
    have hle : degree a2 ≤ degree a := degree_le_of_getD ha2beyond
    rcases Nat.lt_or_ge (degree a2) (degree a) with h | h
    · exact h
    · by_cases hz : ∃ x ∈ a2, x ≠ 0
      · have hne := getD_degree_ne_zero hz
        have heq : degree a2 = degree a := by omega
        rw [heq] at hne
        exact absurd ha2top hne
      · push_neg at hz
        have h0 : degree a2 = 0 := degree_of_all_zero hz
        omega
  have hinv : ∀ k, addC gf (mulSem gf (co q2) (co b) k) (co a2 k) =
      addC gf (mulSem gf (co q) (co b) k) (co a k) := by
    intro k
    have hsplit : mulSem gf (co q2) (co b) k =
        addC gf (mulSem gf (co q) (co b) k)
          (mulSem gf (co mult) (co b) k) := by
      rw [mulSem_congr_left (fun i => hq2co i) k]
      exact mulSem_addC_left L _ _ _ (fun i => co_canon L hq i)
        (fun i => co_canon L hmultc i) (fun i => co_canon L hb i) k
    have ha2k : co a2 k = addC gf (co a k)
        (mulSem gf (co mult) (co b) k) := by
      rw [ha2co k, hsco k, mulSem_comm L]
    rw [hsplit, ha2k]
    exact laws_addC_cancel_pair L (mulSem_canon L _ _ _) (co_canon L ha k)
      (mulSem_canon L _ _ _)
  refine ⟨a2, q2, hstep, ha2c, hq2c, hdega2, hinv, ?_, ?_⟩
  · intro k
    rw [hq2co k, hmult, multiplierVec_co]
  · rw [hq2len, hmult, multiplierVec_degree hd]

/-- One loop body in the degenerate case: the computed quotient
coefficient is the zero element (the `elementFromExp(-1)` quirk), the
subtrahend is the zero polynomial, and the loop state is (semantically)
unchanged — `a` keeps its degree and coefficients. -/
theorem divmodStep_run_zero {gf : GF} (L : GFLaws gf) {b a q : List Int}
    (hb : CanonL gf b) (hbne : b ≠ []) (hlb : co b (degree b) ≠ 0)
    (ha : CanonL gf a) (hla : co a (degree a) ≠ 0) (hq : CanonL gf q)
    (hd : divC gf (co a (degree a)) (co b (degree b)) = 0) :
    ∃ a2 q2, gf.divmodStep b a q = some (a2, q2) ∧
      CanonL gf a2 ∧ CanonL gf q2 ∧
      (∀ k, co a2 k = co a k) ∧ degree a2 = degree a := by
  have hane : a ≠ [] := by
    intro h
    rw [h] at hla
    exact hla rfl
  have hdalt := degree_lt_length hane
  have hdblt := degree_lt_length hbne
  obtain ⟨hdiv, hdcanon, -⟩ := divElements_of_canon gf (laws_q L)
    (co_canon L ha (degree a)) (co_canon L hb (degree b)) hlb
  set d := divC gf (co a (degree a)) (co b (degree b)) with hdd
  set mult := multiplierVec (degree a) (degree b) d with hmult
  have hmultc : CanonL gf mult := multiplierVec_canon L hdcanon
  have hmultne : mult ≠ [] := multiplierVec_ne_nil
  have hmultzero : ∀ k, co mult k = 0 := by
    intro k
    rw [hmult, multiplierVec_co]
    by_cases hk : k = degree a - degree b
    · rw [if_pos hk]
      exact hd
    · rw [if_neg hk]
  obtain ⟨s, hsval, hsc, hslen, hsdegle, hsco⟩ :=
    multPoly_spec L hb hmultc hbne hmultne
  have hszero : ∀ k, co s k = 0 := by
    intro k
    rw [hsco k, mulSem_comm L]
    exact mulSem_zero_fun L hmultzero _ _
  obtain ⟨a2, ha2val, ha2c, ha2len, ha2co⟩ :=
    addPoly_spec L ha hsc (fun h => hane h.1)
  obtain ⟨q2, hq2val, hq2c, hq2len, hq2co⟩ :=
    addPoly_spec L hq hmultc (fun h => hmultne h.2)
  have hstep : gf.divmodStep b a q = some (a2, q2) := by
    unfold GF.divmodStep
    rw [List.get?_eq_getElem?, List.getElem?_eq_getElem hdalt,
      List.get?_eq_getElem?, List.getElem?_eq_getElem hdblt]
    simp only [Option.bind_eq_bind, Option.some_bind]
    rw [show a[degree a] = co a (degree a) from
        (List.getD_eq_getElem _ _ hdalt).symm,
      show b[degree b] = co b (degree b) from
        (List.getD_eq_getElem _ _ hdblt).symm,
      hdiv]
    simp only [Option.some_bind]
    rw [show (List.replicate (degree a - degree b + 1) (0 : Int)).set
        (degree a - degree b) d = mult from rfl,
      hsval]
    simp only [Option.some_bind]
    rw [ha2val]
    simp only [Option.some_bind]
    rw [hq2val]
    rfl
  have hco2 : ∀ k, co a2 k = co a k := by
    intro k
    rw [ha2co k, hszero k, laws_addC_zero_right L (co_canon L ha k)]
  exact ⟨a2, q2, hstep, ha2c, hq2c, hco2, degree_congr hco2⟩

/-- If the computed quotient coefficient at the current state is the zero
element, the loop never exits: the state is semantically stationary, so
no fuel makes `divmodLoop` return a pair. -/
theorem divmodLoop_stuck {gf : GF} (L : GFLaws gf) {b : List Int}
    (hb : CanonL gf b) (hbne : b ≠ []) (hlb : co b (degree b) ≠ 0) :
    ∀ (fuel : Nat) (a q : List Int), CanonL gf a → CanonL gf q →
      co a (degree a) ≠ 0 → degree b ≤ degree a →
      divC gf (co a (degree a)) (co b (degree b)) = 0 →
      ∀ qf r, gf.divmodLoop b fuel a q ≠ .ok qf r := by
  intro fuel
  induction fuel with
  | zero =>
    intro a q _ _ _ hguard _ qf r h
    rw [GF.divmodLoop, if_neg (by omega)] at h
    exact DivmodRes.noConfusion h
  | succ n ih =>
    intro a q hca hcq hla hguard hd qf r h
    rw [GF.divmodLoop, if_neg (by omega)] at h
    obtain ⟨a2, q2, hstep, hca2, hcq2, hco2, hdeg2⟩ :=
      divmodStep_run_zero L hb hbne hlb hca hla hcq hd
    rw [hstep] at h
    refine ih a2 q2 hca2 hcq2 ?_ (by omega) ?_ qf r h
    · rw [hdeg2, hco2]
      exact hla
    · rw [hdeg2, hco2]
      exact hd

/-- The loop invariant of `divmodPoly`: whenever the reduction loop
returns a pair `(qf, r)`, the remainder has degree below `degree b` and
`qf·b + r = q·b + a` coefficient-wise (over the field); moreover the
accumulated quotient is trimmed with nonzero leading coefficient and
degree `degree a - degree b` (when the loop was entered with empty
accumulator). -/
theorem divmodLoop_ok_spec {gf : GF} (L : GFLaws gf) {b : List Int}
    (hb : CanonL gf b) (hbne : b ≠ []) (hlb : co b (degree b) ≠ 0)
    (hdb : 1 ≤ degree b) :
    ∀ (fuel : Nat) (a q qf r : List Int),
      CanonL gf a → CanonL gf q →
      (q = [] ∨ (q.length = degree q + 1 ∧ co q (degree q) ≠ 0 ∧
        degree a < degree q + degree b)) →
      gf.divmodLoop b fuel a q = .ok qf r →
      CanonL gf qf ∧ CanonL gf r ∧ degree r < degree b ∧
      (∀ k, addC gf (mulSem gf (co qf) (co b) k) (co r k) =
            addC gf (mulSem gf (co q) (co b) k) (co a k)) ∧
      ((degree a < degree b ∧ qf = q ∧ r = a) ∨
       (degree b ≤ degree a ∧ qf.length = degree qf + 1 ∧
        co qf (degree qf) ≠ 0 ∧
        degree qf = (if q = [] then degree a - degree b else degree q))) := by
  intro fuel
  induction fuel with
  | zero =>
    intro a q qf r hca hcq hshape h
    rw [GF.divmodLoop] at h
    by_cases hg : degree a < degree b
    · rw [if_pos hg] at h
      injection h with h1 h2
      subst h1
      subst h2
      exact ⟨hcq, hca, hg, fun k => rfl, Or.inl ⟨hg, rfl, rfl⟩⟩
    · rw [if_neg hg] at h
      exact DivmodRes.noConfusion h
  | succ n ih =>
    intro a q qf r hca hcq hshape h
    rw [GF.divmodLoop] at h
    by_cases hg : degree a < degree b
    · rw [if_pos hg] at h
      injection h with h1 h2
      subst h1
      subst h2
      exact ⟨hcq, hca, hg, fun k => rfl, Or.inl ⟨hg, rfl, rfl⟩⟩
    · rw [if_neg hg] at h
      have hguard : degree b ≤ degree a := by omega
      have hdapos : 1 ≤ degree a := le_trans hdb hguard
      have hanz : ∃ x ∈ a, x ≠ 0 := by
        by_contra hz
        push_neg at hz
        have := degree_of_all_zero hz
        omega
      have hla : co a (degree a) ≠ 0 := getD_degree_ne_zero hanz
      by_cases hd : divC gf (co a (degree a)) (co b (degree b)) = 0
      · obtain ⟨a2, q2, hstep, hca2, hcq2, hco2, hdeg2⟩ :=
          divmodStep_run_zero L hb hbne hlb hca hla hcq hd
        rw [hstep] at h
        refine absurd h (divmodLoop_stuck L hb hbne hlb n a2 q2 hca2 hcq2
          ?_ (by omega) ?_ qf r)
        · rw [hdeg2, hco2]
          exact hla
        · rw [hdeg2, hco2]
          exact hd
      · obtain ⟨a2, q2, hstep, hca2, hcq2, hdega2, hinvstep, hq2pt, hq2len⟩ :=
          divmodStep_run L hb hbne hlb hdb hca hla hguard hcq hd
        rw [hstep] at h
        have hq2facts : q2.length = degree q2 + 1 ∧ co q2 (degree q2) ≠ 0 ∧
            degree q2 = (if q = [] then degree a - degree b else degree q) ∧
            degree a2 < degree q2 + degree b := by
          rcases hshape with hqnil | ⟨hql, hqlead, hqlt⟩
          · subst hqnil
            have hco0 : ∀ k, co q2 k =
                (if k = degree a - degree b then
                  divC gf (co a (degree a)) (co b (degree b)) else 0) := by
              intro k
              rw [hq2pt k, show co ([] : List Int) k = 0 from rfl,
                laws_addC_zero_left L (by
                  by_cases hk : k = degree a - degree b
                  · rw [if_pos hk]
                    exact (divElements_of_canon gf (laws_q L)
                      (co_canon L hca _) (co_canon L hb _) hlb).2.1
                  · rw [if_neg hk]
                    exact canon_zero L)]
            have hq2deg : degree q2 = degree a - degree b := by
              apply degree_eq_of_getD
              · show co q2 (degree a - degree b) ≠ 0
                rw [hco0, if_pos rfl]
                exact hd
              · intro i hi
                show co q2 i = 0
                rw [hco0, if_neg (by omega)]
            refine ⟨?_, ?_, ?_, ?_⟩
            · rw [hq2len, hq2deg]
              simp [degree_nil]
            · rw [hq2deg, hco0, if_pos rfl]
              exact hd
            · rw [hq2deg, if_pos rfl]
            · rw [hq2deg]
              omega
          · have hddb : degree a - degree b < degree q := by omega
            have hqne : q ≠ [] := by
              intro hh
              rw [hh] at hqlead
              exact hqlead rfl
            have hco0 : ∀ k, degree q < k → co q2 k = 0 := by
              intro k hk
              rw [hq2pt k, co_eq_zero_of_degree_lt hk, if_neg (by omega),
                laws_addC_zero_right L (canon_zero L)]
            have hcoD : co q2 (degree q) = co q (degree q) := by
              rw [hq2pt _, if_neg (by omega),
                laws_addC_zero_right L (co_canon L hcq _)]
            have hq2deg : degree q2 = degree q := by
              apply degree_eq_of_getD
              · show co q2 (degree q) ≠ 0
                rw [hcoD]
                exact hqlead
              · exact fun i hi => hco0 i hi
            refine ⟨?_, ?_, ?_, ?_⟩
            · rw [hq2len, hq2deg, Nat.max_eq_left (by omega)]
            · rw [hq2deg, hcoD]
              exact hqlead
            · rw [hq2deg, if_neg hqne]
            · rw [hq2deg]
              omega
        obtain ⟨hcqf, hcr, hdr, hinv2, hshape2⟩ := ih a2 q2 qf r hca2 hcq2
          (Or.inr ⟨hq2facts.1, hq2facts.2.1, hq2facts.2.2.2⟩) h
        refine ⟨hcqf, hcr, hdr, ?_, ?_⟩
        · intro k
          rw [hinv2 k, hinvstep k]
        · right
          have hq2ne : q2 ≠ [] := by
            intro hh
            have := hq2facts.1
            rw [hh] at this
            simp [degree_nil] at this
          rcases hshape2 with ⟨hlt2, hqfq2, hra2⟩ | ⟨hge2, hqfl, hqflead, hqfdeg⟩
          · subst hqfq2
            exact ⟨hguard, hq2facts.1, hq2facts.2.1, hq2facts.2.2.1⟩
          · rw [if_neg hq2ne] at hqfdeg
            exact ⟨hguard, hqfl, hqflead, by rw [hqfdeg]; exact hq2facts.2.2.1⟩

/-! ## C3: `divmodPoly` reconstruction -/

/-- C3 counterexample: already over GF(4), dividing the constant
polynomial `[1]` by `X = [0,1]` returns the pair `([], [1])` — the
quotient is the EMPTY vector `np.zeros(0)` — and
`multPoly(quotient, b)` then raises an `IndexError` (`product` indexing
into the empty array), so `multPoly(quotient, b)` added to the remainder
cannot reconstruct `a`; the reconstruction identity fails whenever
`degree a < degree b`. -/
theorem divmodPoly_empty_quotient_breaks_reconstruction :
    GF4.divmodPoly 5 [1] [0, 1] = .ok [] [1] ∧
      GF4.multPoly [] [0, 1] = none := by decide

/-- C3 amended: whenever `divmodPoly(a, b)` over the field returns a pair
`(quotient, remainder)` with `degree b ≥ 1 ≤ degree a ≥ degree b` and the
inputs are vectors of canonical field elements, then
`degree remainder < degree b` and
`addPoly(multPoly(quotient, b), remainder)` succeeds and reconstructs `a`
exactly (up to `a`'s dangling zeros above its true degree: the result is
`a[:degree a + 1]`, hence `a` itself whenever `a` is trimmed).  For
`degree a < degree b` the quotient is the empty vector, which `multPoly`
rejects (see the counterexample), and for `degree b = 0` — or when a
quotient coefficient hits the `elementFromExp(-1)` quirk — the call never
returns at all. -/
theorem divmodPoly_reconstruction (gf : GF) (L : GFLaws gf)
    (fuel : Nat) (a b qf r : List Int)
    (ha : CanonL gf a) (hb : CanonL gf b)
    (hdb : 1 ≤ degree b) (hda : degree b ≤ degree a)
    (h : gf.divmodPoly fuel a b = .ok qf r) :
    degree r < degree b ∧
    ∃ c out, gf.multPoly qf b = some c ∧ gf.addPoly c r = some out ∧
      out = a.take (degree a + 1) ∧
      (isTrimmedB a = true → out = a) := by
  unfold GF.divmodPoly at h
  by_cases hany : b.any (fun x => x != 0) = true
  · rw [if_pos hany] at h
    have hbnz : ∃ x ∈ b, x ≠ 0 := by
      rcases List.any_eq_true.mp hany with ⟨x, hx, hxne⟩
      exact ⟨x, hx, by simpa using hxne⟩
    have hbne : b ≠ [] := by
      rintro rfl
      rcases hbnz with ⟨x, hx, _⟩
      simp at hx
    have hlb : co b (degree b) ≠ 0 := getD_degree_ne_zero hbnz
    obtain ⟨hcqf, hcr, hdr, hinv, hshape⟩ := divmodLoop_ok_spec L hb hbne hlb
      hdb fuel a [] qf r ha (fun x hx => by simp at hx) (Or.inl rfl) h
    refine ⟨hdr, ?_⟩
    rcases hshape with ⟨hlt, _, _⟩ | ⟨_, hqfl, hqflead, hqfdeg⟩
    · omega
    · rw [if_pos rfl] at hqfdeg
      have hqfne : qf ≠ [] := by
        intro hh
        rw [hh] at hqfl
        simp [degree_nil] at hqfl
      obtain ⟨c, hcval, hcc, hclen, hcdeg, hclead, hcco⟩ :=
        multPoly_lead L hcqf hb hqfne hbne hqflead hlb
      have hcdeg2 : degree c = degree a := by
        rw [hcdeg, hqfdeg]
        omega
      have hane : a ≠ [] := by
        intro hh
        rw [hh] at hda
        simp [degree_nil] at hda
        omega
      have hdalt := degree_lt_length hane
      have hcne : c ≠ [] := by
        intro hh
        rw [hh] at hclen
        simp at hclen
      obtain ⟨out, houtval, houtc, houtlen, houtco⟩ :=
        addPoly_spec L hcc hcr (fun hh => hcne hh.1)
      have houtco2 : ∀ k, co out k = co a k := by
        intro k
        rw [houtco k, hcco k, hinv k,
          mulSem_zero_fun (f := co ([] : List Int)) L (fun i => rfl) (co b) k,
          laws_addC_zero_left L (co_canon L ha k)]
      have houtlen2 : out.length = degree a + 1 := by
        rw [houtlen, hcdeg2, Nat.max_eq_left (by omega)]
      have hout : out = a.take (degree a + 1) := by
        apply List.ext_getElem
        · rw [houtlen2, List.length_take]
          omega
        · intro n h1 h2
          have hn : n ≤ degree a := by
            rw [houtlen2] at h1
            omega
          have hna : n < a.length := by omega
          rw [List.getElem_take]
          calc out[n] = co out n := (List.getD_eq_getElem _ _ h1).symm
            _ = co a n := houtco2 n
            _ = a[n] := List.getD_eq_getElem _ _ hna
      refine ⟨c, out, hcval, houtval, hout, ?_⟩
      intro htrim
      have hlen : a.length = degree a + 1 := by
        unfold isTrimmedB at htrim
        simpa using htrim
      rw [hout, ← hlen, List.take_length]
  · rw [if_neg hany] at h
    exact DivmodRes.noConfusion h

/-- Witness for the amended C3 over GF(4):
`(2 + 3X + X²) / (1 + X)` returns quotient `[2, 1]` and remainder
`[0, 0]`, and `multPoly([2,1], [1,1])` added to `[0,0]` reconstructs
`[2, 3, 1]`. -/
theorem divmodPoly_reconstruction_witness :
    degree [(0 : Int), 0] < degree [(1 : Int), 1] ∧
    ∃ c out, GF4.multPoly [2, 1] [1, 1] = some c ∧
      GF4.addPoly c [0, 0] = some out ∧
      out = [(2 : Int), 3, 1].take (degree [(2 : Int), 3, 1] + 1) ∧
      (isTrimmedB [(2 : Int), 3, 1] = true → out = [2, 3, 1]) :=
  divmodPoly_reconstruction GF4 (by decide) 9 [2, 3, 1] [1, 1] [2, 1] [0, 0]
    (by decide) (by decide) (by decide) (by decide) (by decide)

/-! ## C10: `removeConjugateRoots` mutates in place -/

/-- C10 (confirmed): in the heap model, a successful
`removeConjugateRoots(store, r)` returns the very reference `r` it was
given (the source aliases `result = roots` and returns `result`), and the
output heap is the input heap with the object at `r` overwritten by the
reduced list — no new list object is allocated and the argument is not
left unchanged (the witness shows a run where the content shrinks). -/
theorem removeConjugateRoots_in_place (gf : GF) (fuel : Nat)
    (store : List (List Int)) (r ret : Nat) (store2 : List (List Int))
    (h : gf.removeConjugateRoots fuel store r = some (ret, store2)) :
    ret = r ∧ store2.length = store.length ∧
      ∃ final, gf.rcrLoop fuel fuel 0 ((store.get? r).getD []) = some final ∧
        store2 = store.set r final := by
  unfold GF.removeConjugateRoots at h
  rcases Option.bind_eq_some.mp h with ⟨roots, hroots, h⟩
  rcases Option.bind_eq_some.mp h with ⟨final, hfinal, h⟩
  simp only [Option.pure_def, Option.some_inj, Prod.mk.injEq] at h
  rcases h with ⟨hret, hstore⟩
  subst hret
  subst hstore
  refine ⟨rfl, by simp, final, ?_, rfl⟩
  rw [hroots]
  exact hfinal

/-- Witness for C10: over GF(16), reducing the root list `[2, 3, 4, 5]`
strikes the conjugates `3` and `5` of `2` from the shared object, leaving
`[2, 4]` at the same reference (`[[2,4]] ≠ [[2,3,4,5]]`, so the argument
object was really mutated). -/
theorem removeConjugateRoots_in_place_witness :
    ((0 : Nat) = 0 ∧ ([[2, 4]] : List (List Int)).length = [[2, 3, 4, 5]].length ∧
      ∃ final, G16.rcrLoop 20 20 0 (([[2, 3, 4, 5]].get? 0).getD []) = some final ∧
        [[2, 4]] = [[2, 3, 4, 5]].set 0 final) ∧
    ([[2, 4]] : List (List Int)) ≠ [[2, 3, 4, 5]] :=
  ⟨removeConjugateRoots_in_place G16 20 [[2, 3, 4, 5]] 0 0 [[2, 4]] (by decide),
    by decide⟩

/-! ### The table built by `constructGF` (C8)

`constructGF` computes, for each `i`, the residue of `X^(i-1)` modulo the
defining polynomial, using only the global `GF2` instance (coefficients mod
2) and the rows built so far.  To state what the rows mean we map the
coefficient vectors into `Polynomial (ZMod 2)` and track every row's residue
class modulo `p` through the construction. -/

theorem canon2 {x : Int} : Canon GF2 x ↔ x = 0 ∨ x = 1 := by
  unfold Canon
  have h : ((GF2.q : Nat) : Int) = 2 := by decide
  rw [h]
  omega

theorem GF2laws : GFLaws GF2 := by decide

/-- An integer coefficient read as an element of GF(2) (the mathematical
meaning of the 0/1 entries of the vectors `constructGF` manipulates). -/
def phi (x : Int) : ZMod 2 := (x : ZMod 2)

theorem phi_zero : phi 0 = 0 := by decide

theorem phi_one : phi 1 = 1 := by decide

theorem phi_addC {x y : Int} (hx : Canon GF2 x) (hy : Canon GF2 y) :
    phi (addC GF2 x y) = phi x + phi y := by
  rcases canon2.mp hx with rfl | rfl <;> rcases canon2.mp hy with rfl | rfl <;> decide

theorem phi_mulC {x y : Int} (hx : Canon GF2 x) (hy : Canon GF2 y) :
    phi (mulC GF2 x y) = phi x * phi y := by
  rcases canon2.mp hx with rfl | rfl <;> rcases canon2.mp hy with rfl | rfl <;> decide

theorem phi_inj {x y : Int} (hx : Canon GF2 x) (hy : Canon GF2 y)
    (h : phi x = phi y) : x = y := by
  rcases canon2.mp hx with rfl | rfl <;> rcases canon2.mp hy with rfl | rfl <;>
    first
      | rfl
      | (exfalso; revert h; decide)

/-- The polynomial over GF(2) denoted by a coefficient vector (index `i`
holds the coefficient of `X^i`). -/
noncomputable def toP (v : List Int) : Polynomial (ZMod 2) :=
  ∑ i ∈ Finset.range v.length, Polynomial.monomial i (phi (co v i))

theorem toP_coeff (v : List Int) (k : Nat) : (toP v).coeff k = phi (co v k) := by
  unfold toP
  rw [Polynomial.finset_sum_coeff]
  simp only [Polynomial.coeff_monomial]
  rw [Finset.sum_ite_eq' (Finset.range v.length) k (fun i => phi (co v i))]
  by_cases h : k < v.length
  · rw [if_pos (Finset.mem_range.mpr h)]
  · rw [if_neg (by simpa using h)]
    unfold co
    rw [List.getD_eq_default _ _ (by omega)]
    exact phi_zero.symm

theorem toP_congr {v w : List Int} (h : ∀ k, co v k = co w k) : toP v = toP w := by
  apply Polynomial.ext
  intro k
  rw [toP_coeff, toP_coeff, h]

theorem co_nil (k : Nat) : co ([] : List Int) k = 0 := by
  unfold co
  simp

theorem toP_nil : toP [] = 0 := by
  unfold toP
  simp

theorem toP_replicate_zero (n : Nat) : toP (List.replicate n 0) = 0 := by
  rw [toP_congr (w := []) (fun k => by rw [co_replicate_zero, co_nil]), toP_nil]

theorem co_Xpoly (n k : Nat) : co (Xpoly n) k = if k = n then 1 else 0 := by
  unfold co Xpoly
  by_cases h : k < n
  · rw [if_neg (by omega)]
    rw [List.getD_eq_getElem _ _ (by simp; omega)]
    rw [List.getElem_append_left (by simp [h])]
    simp
  · by_cases h2 : k = n
    · subst h2
      rw [if_pos rfl]
      rw [List.getD_eq_getElem _ _ (by simp)]
      rw [List.getElem_append_right (by simp)]
      simp
    · rw [if_neg h2]
      exact List.getD_eq_default _ _ (by simp; omega)

theorem toP_Xpoly (n : Nat) : toP (Xpoly n) = Polynomial.X ^ n := by
  apply Polynomial.ext
  intro k
  rw [toP_coeff, Polynomial.coeff_X_pow, co_Xpoly]
  by_cases h : k = n
  · rw [if_pos h, if_pos h]
    exact phi_one
  · rw [if_neg h, if_neg h]
    exact phi_zero

theorem Xpoly_length (n : Nat) : (Xpoly n).length = n + 1 := by
  unfold Xpoly
  simp

theorem Xpoly_ne_nil (n : Nat) : Xpoly n ≠ [] := by
  intro h
  have := Xpoly_length n
  rw [h] at this
  simp at this

theorem degree_Xpoly (n : Nat) : degree (Xpoly n) = n := by
  unfold degree Xpoly
  rw [List.reverse_append, List.reverse_replicate]
  simp [List.dropWhile_cons]

theorem trim_Xpoly (n : Nat) : trim (Xpoly n) = Xpoly n := by
  unfold trim
  rw [degree_Xpoly]
  exact List.take_of_length_le (by rw [Xpoly_length])

theorem canonL_of_01 {v : List Int} (h : ∀ x ∈ v, x = 0 ∨ x = 1) :
    CanonL GF2 v := fun x hx => canon2.mpr (h x hx)

theorem canonL_Xpoly (n : Nat) : CanonL GF2 (Xpoly n) := by
  apply canonL_of_01
  intro x hx
  unfold Xpoly at hx
  rcases List.mem_append.mp hx with h | h
  · exact Or.inl (List.eq_of_mem_replicate h)
  · simp at h
    exact Or.inr h

theorem canonL_sub {gf : GF} {v w : List Int} (hs : v ⊆ w)
    (hw : CanonL gf w) : CanonL gf v := fun x hx => hw x (hs hx)

theorem canonL_append_zeros {v : List Int} (hv : CanonL GF2 v) (n : Nat) :
    CanonL GF2 (v ++ List.replicate n 0) := by
  intro x hx
  rcases List.mem_append.mp hx with h | h
  · exact hv x h
  · rw [List.eq_of_mem_replicate h]
    exact canon2.mpr (Or.inl rfl)

theorem co_append_zeros (v : List Int) (n k : Nat) :
    co (v ++ List.replicate n 0) k = co v k := by
  unfold co
  by_cases h : k < v.length
  · rw [List.getD_append _ _ _ _ h]
  · by_cases h2 : k < v.length + n
    · rw [List.getD_append_right _ _ _ _ (by omega)]
      rw [List.getD_eq_getElem _ _ (by simp; omega)]
      rw [List.getElem_replicate]
      rw [List.getD_eq_default _ _ (by omega)]
    · rw [List.getD_eq_default _ _ (by simp; omega),
        List.getD_eq_default _ _ (by omega)]

theorem toP_append_zeros (v : List Int) (n : Nat) :
    toP (v ++ List.replicate n 0) = toP v :=
  toP_congr (fun k => co_append_zeros v n k)

theorem toP_trim (v : List Int) : toP (trim v) = toP v :=
  toP_congr (fun k => co_trim v k)

theorem toP_natDegree_le (v : List Int) : (toP v).natDegree ≤ v.length - 1 := by
  rw [Polynomial.natDegree_le_iff_coeff_eq_zero]
  intro N hN
  rw [toP_coeff]
  unfold co
  rw [List.getD_eq_default _ _ (by omega)]
  exact phi_zero

theorem toP_inj {v w : List Int} (hv : CanonL GF2 v) (hw : CanonL GF2 w)
    (hl : v.length = w.length) (h : toP v = toP w) : v = w := by
  apply List.ext_getElem hl
  intro i h1 h2
  have hc : (toP v).coeff i = (toP w).coeff i := by rw [h]
  rw [toP_coeff, toP_coeff] at hc
  have hco := phi_inj (co_canon GF2laws hv i) (co_canon GF2laws hw i) hc
  unfold co at hco
  rw [List.getD_eq_getElem _ _ h1, List.getD_eq_getElem _ _ h2] at hco
  exact hco

theorem list_range_map_sum (f : Nat → ZMod 2) (n : Nat) :
    ((List.range n).map f).sum = ∑ i ∈ Finset.range n, f i := by
  induction n with
  | zero => simp
  | succ k ih =>
    rw [List.range_succ, List.map_append, List.sum_append,
      Finset.sum_range_succ, ih]
    simp

theorem phi_foldl_addC :
    ∀ (l : List Int) (acc : Int), Canon GF2 acc → CanonL GF2 l →
      phi (l.foldl (addC GF2) acc) = phi acc + (l.map phi).sum := by
  intro l
  induction l with
  | nil =>
    intro acc _ _
    simp
  | cons x xs ih =>
    intro acc hacc hl
    rw [List.foldl_cons]
    rw [ih _ (laws_addC_canon GF2laws hacc (hl x (by simp)))
      (fun y hy => hl y (by simp [hy]))]
    rw [phi_addC hacc (hl x (by simp)), List.map_cons, List.sum_cons, add_assoc]

theorem phi_bigAdd {l : List Int} (hl : CanonL GF2 l) :
    phi (bigAdd GF2 l) = (l.map phi).sum := by
  unfold bigAdd
  rw [phi_foldl_addC l 0 (canon_zero GF2laws) hl, phi_zero, zero_add]

theorem phi_mulSem {a b : List Int} (ha : CanonL GF2 a) (hb : CanonL GF2 b)
    (k : Nat) :
    phi (mulSem GF2 (co a) (co b) k) =
      ∑ i ∈ Finset.range (k + 1), phi (co a i) * phi (co b (k - i)) := by
  unfold mulSem
  rw [phi_bigAdd (fun x hx => by
    rcases List.mem_map.mp hx with ⟨i, _, rfl⟩
    exact mulC_canon GF2 (laws_q GF2laws) _ _)]
  rw [List.map_map]
  have hfun : (phi ∘ fun i => mulC GF2 (co a i) (co b (k - i))) =
      fun i => phi (co a i) * phi (co b (k - i)) :=
    funext (fun i => phi_mulC (co_canon GF2laws ha i) (co_canon GF2laws hb (k - i)))
  rw [hfun, list_range_map_sum]

/-- `GF2.addPoly` on 0/1 vectors succeeds and is polynomial addition over
GF(2). -/
theorem addPoly_GF2_toP {a b : List Int} (ha : CanonL GF2 a) (hb : CanonL GF2 b)
    (hne : ¬(a = [] ∧ b = [])) :
    ∃ c, GF2.addPoly a b = some c ∧ CanonL GF2 c ∧
      c.length = max (degree a) (degree b) + 1 ∧
      (∀ k, co c k = addC GF2 (co a k) (co b k)) ∧ toP c = toP a + toP b := by
  obtain ⟨c, hc, hcanon, hlen, hco⟩ := addPoly_spec GF2laws ha hb hne
  refine ⟨c, hc, hcanon, hlen, hco, ?_⟩
  apply Polynomial.ext
  intro k
  rw [Polynomial.coeff_add, toP_coeff, toP_coeff, toP_coeff, hco k,
    phi_addC (co_canon GF2laws ha k) (co_canon GF2laws hb k)]

/-- `GF2.multPoly` on 0/1 vectors succeeds and is polynomial multiplication
over GF(2). -/
theorem multPoly_GF2_toP {a b : List Int} (ha : CanonL GF2 a) (hb : CanonL GF2 b)
    (hane : a ≠ []) (hbne : b ≠ []) :
    ∃ c, GF2.multPoly a b = some c ∧ CanonL GF2 c ∧ c ≠ [] ∧
      degree c ≤ degree a + degree b ∧ toP c = toP a * toP b := by
  obtain ⟨c, hc, hcanon, hlen, hdeg, hco⟩ := multPoly_spec GF2laws ha hb hane hbne
  refine ⟨c, hc, hcanon, ?_, hdeg, ?_⟩
  · intro h
    rw [h] at hlen
    simp [degree_nil] at hlen
  · apply Polynomial.ext
    intro k
    rw [toP_coeff, hco k, phi_mulSem ha hb, Polynomial.coeff_mul,
      Finset.Nat.sum_antidiagonal_eq_sum_range_succ_mk]
    apply Finset.sum_congr rfl
    intro i _
    rw [toP_coeff, toP_coeff]

theorem toP_dropLast {l : List Int} (hne : l ≠ []) :
    toP l = toP l.dropLast +
      Polynomial.monomial (l.length - 1) (phi (co l (l.length - 1))) := by
  apply Polynomial.ext
  intro k
  rw [Polynomial.coeff_add, toP_coeff, toP_coeff, Polynomial.coeff_monomial]
  have hlpos : 0 < l.length := List.length_pos.mpr hne
  by_cases hk : k < l.length - 1
  · rw [if_neg (by omega)]
    have h : co l.dropLast k = co l k := by
      unfold co
      rw [List.getD_eq_getElem _ _ (by rw [List.length_dropLast]; omega),
        List.getD_eq_getElem _ _ (by omega), List.getElem_dropLast]
    rw [h, add_zero]
  · by_cases hk2 : k = l.length - 1
    · subst hk2
      rw [if_pos rfl]
      have h : co l.dropLast (l.length - 1) = 0 := by
        unfold co
        exact List.getD_eq_default _ _ (by rw [List.length_dropLast])
      rw [h, phi_zero, zero_add]
    · rw [if_neg (fun hh => hk2 hh.symm)]
      have h1 : co l k = 0 := by
        unfold co
        exact List.getD_eq_default _ _ (by omega)
      have h2 : co l.dropLast k = 0 := by
        unfold co
        exact List.getD_eq_default _ _ (by rw [List.length_dropLast]; omega)
      rw [h1, h2, phi_zero, add_zero]

/-- The `for j in range(0, quotient)` loop of `constructGF`: repeated
`GF2.multPoly` by `a_high` succeeds on 0/1 vectors and computes
`poly * a_high^n`, with the degree growing by at most `degree a_high` per
step. -/
theorem powAhigh_run {ah : List Int} (hah : CanonL GF2 ah) (hahne : ah ≠ []) :
    ∀ (n : Nat) (poly : List Int), CanonL GF2 poly → poly ≠ [] →
      ∃ out, powAhigh ah n poly = some out ∧ CanonL GF2 out ∧ out ≠ [] ∧
        degree out ≤ degree poly + n * degree ah ∧
        toP out = toP poly * (toP ah) ^ n := by
  intro n
  induction n with
  | zero =>
    intro poly hc hne
    exact ⟨poly, rfl, hc, hne, by omega, by rw [pow_zero, mul_one]⟩
  | succ j ih =>
    intro poly hc hne
    obtain ⟨c, hcm, hccanon, hcne, hcdeg, hctoP⟩ :=
      multPoly_GF2_toP hc hah hne hahne
    obtain ⟨out, hout, h1, h2, h3, h4⟩ := ih c hccanon hcne
    refine ⟨out, ?_, h1, h2, ?_, ?_⟩
    · show powAhigh ah (j + 1) poly = some out
      unfold powAhigh
      rw [hcm]
      simpa using hout
    · have hmul : (j + 1) * degree ah = j * degree ah + degree ah :=
        Nat.succ_mul _ _
      omega
    · rw [h4, hctoP, pow_succ]
      ring

/-- The `while degree(poly) >= m` loop of `constructGF`: with every already
built row holding a width-`m` 0/1 vector whose polynomial is congruent to
the power of `X` its index denotes, the loop terminates within
`poly.length` steps (each iteration shortens the vector to its degree),
stays inside the table (`degree poly + 2 <= len(elements)` is preserved),
and returns a vector of degree `< m` in the same residue class as its
input modulo `pp`. -/
theorem reduceHigh_run {mm : Nat} (hm : 1 ≤ mm) {pp : List Int}
    {elements : List (List Int)}
    (hrows : ∀ k, k < elements.length →
      (elements.getD k []).length = mm ∧ CanonL GF2 (elements.getD k []) ∧
      (1 ≤ k → toP pp ∣ toP (elements.getD k []) - Polynomial.X ^ (k - 1))) :
    ∀ (fuel : Nat) (poly : List Int), CanonL GF2 poly → poly.length ≤ fuel →
      degree poly + 2 ≤ elements.length →
      ∃ out, reduceHigh mm elements fuel poly = some out ∧ CanonL GF2 out ∧
        degree out < mm ∧ toP pp ∣ toP out - toP poly := by
  intro fuel
  induction fuel with
  | zero =>
    intro poly hc hlen hidx
    have hpn : poly = [] := List.eq_nil_of_length_eq_zero (by omega)
    subst hpn
    refine ⟨[], ?_, hc, by rw [degree_nil]; omega,
      by rw [sub_self]; exact dvd_zero _⟩
    show reduceHigh mm elements 0 [] = some []
    unfold reduceHigh
    rw [if_pos (by rw [degree_nil]; omega)]
  | succ f ih =>
    intro poly hc hlen hidx
    by_cases hd : degree poly < mm
    · refine ⟨poly, ?_, hc, hd, by rw [sub_self]; exact dvd_zero _⟩
      show reduceHigh mm elements (f + 1) poly = some poly
      unfold reduceHigh
      rw [if_pos hd]
    · push_neg at hd
      have hne : poly ≠ [] := by
        intro h
        subst h
        rw [degree_nil] at hd
        omega
      have hdlt := degree_lt_length hne
      have hidx2 : degree poly + 1 < elements.length := by omega
      obtain ⟨hrlen, hrcanon, hrdvd⟩ := hrows (degree poly + 1) hidx2
      set row := elements.getD (degree poly + 1) [] with hrow
      have hget : elements.get? (degree poly + 1) = some row := by
        rw [List.get?_eq_getElem?, List.getElem?_eq_getElem hidx2]
        rw [hrow, List.getD_eq_getElem _ _ hidx2]
      have hrowne : row ≠ [] := by
        intro h
        rw [h] at hrlen
        simp at hrlen
        omega
      have hrowdeg : degree row < mm := by
        have := degree_lt_length hrowne
        omega
      obtain ⟨s, hs, hscanon, hslen, hsco, hstoP⟩ :=
        addPoly_GF2_toP hc hrcanon (fun h => hne h.1)
      have hslen2 : s.length = degree poly + 1 := by
        rw [hslen]
        omega
      have hpoly_entry : ∃ x ∈ poly, x ≠ 0 := by
        by_contra hall
        push_neg at hall
        have := degree_of_all_zero hall
        omega
      have htop1 : co poly (degree poly) = 1 := by
        have htop : co poly (degree poly) ≠ 0 := getD_degree_ne_zero hpoly_entry
        rcases canon2.mp (co_canon GF2laws hc (degree poly)) with h0 | h1
        · exact absurd h0 htop
        · exact h1
      have hcod : co s (degree poly) = 1 := by
        rw [hsco]
        have hrowd : co row (degree poly) = 0 := by
          unfold co
          exact List.getD_eq_default _ _ (by omega)
        rw [hrowd, laws_addC_zero_right GF2laws (co_canon GF2laws hc _), htop1]
      have hsne : s ≠ [] := by
        intro h
        rw [h] at hslen2
        simp at hslen2
      have hstep := toP_dropLast hsne
      rw [hslen2] at hstep
      simp only [Nat.add_sub_cancel] at hstep
      rw [hcod, phi_one, ← Polynomial.X_pow_eq_monomial] at hstep
      set s2 := s.dropLast with hs2
      have hs2len : s2.length = degree poly := by
        rw [hs2, List.length_dropLast, hslen2]
        omega
      have hs2canon : CanonL GF2 s2 := canonL_sub (List.dropLast_subset s) hscanon
      have hclass : toP pp ∣ toP s2 - toP poly := by
        have h1 := hrdvd (by omega)
        simp only [Nat.add_sub_cancel] at h1
        have h2 : toP s2 - toP poly = toP row - Polynomial.X ^ degree poly := by
          linear_combination hstoP - hstep
        rw [h2]
        exact h1
      have hs2deg : degree s2 + 2 ≤ elements.length := by
        by_cases h : s2 = []
        · rw [h, degree_nil]
          omega
        · have := degree_lt_length h
          rw [hs2len] at this
          omega
      obtain ⟨out, hout, hocanon, hodeg, hodvd⟩ :=
        ih s2 hs2canon (by omega) hs2deg
      refine ⟨out, ?_, hocanon, hodeg, ?_⟩
      · show reduceHigh mm elements (f + 1) poly = some out
        unfold reduceHigh
        rw [if_neg (by omega)]
        rw [hget]
        simp only [Option.bind_eq_bind, Option.some_bind]
        rw [hs]
        simp only [Option.some_bind]
        rw [← hs2]
        exact hout
      · have hsum := dvd_add hodvd hclass
        rw [sub_add_sub_cancel] at hsum
        exact hsum

theorem zero_cons_replicate {n : Nat} (hn : 1 ≤ n) :
    (0 : Int) :: List.replicate (n - 1) 0 = List.replicate n 0 := by
  rw [← List.replicate_succ]
  congr 1
  omega

/-- One iteration of the table-building loop of `constructGF`: given the
rows built so far (one per index `< i`, each a width-`m` 0/1 vector in the
residue class of the power of `X` its index denotes), the entry for index
`i` is computed without error and is itself a width-`m` 0/1 vector, the
all-zero vector for `i = 0` and a vector congruent to `X^(i-1)` mod `pp`
for `i >= 1`. -/
theorem constructEntry_run {pp : List Int} {mm : Nat} (hm : 1 ≤ mm)
    (hdeg : degree pp = mm) (h01 : ∀ x ∈ pp, x = 0 ∨ x = 1)
    {elements : List (List Int)} {i : Nat} (hlen : elements.length = i)
    (hrows : ∀ k, k < elements.length →
      (elements.getD k []).length = mm ∧ CanonL GF2 (elements.getD k []) ∧
      (1 ≤ k → toP pp ∣ toP (elements.getD k []) - Polynomial.X ^ (k - 1))) :
    ∃ e, constructEntry mm pp elements i = some e ∧ e.length = mm ∧
      CanonL GF2 e ∧ (i = 0 → e = List.replicate mm 0) ∧
      (1 ≤ i → toP pp ∣ toP e - Polynomial.X ^ (i - 1)) := by
  by_cases hi0 : i = 0
  · subst hi0
    refine ⟨List.replicate mm 0, ?_, by simp, ?_, fun _ => rfl, by omega⟩
    · show constructEntry mm pp elements 0 = some (List.replicate mm 0)
      simp only [constructEntry, reduceIte]
      rw [if_neg (by rw [show degree [0] = 0 from rfl]; omega)]
      simp only [Option.pure_def, Option.bind_eq_bind, Option.some_bind]
      rw [show trim [0] = [0] from rfl]
      rw [if_pos (by simp; omega)]
      rw [show ([0] : List Int).length = 1 from rfl]
      rw [show ([0] : List Int) ++ List.replicate (mm - 1) 0 =
        (0 : Int) :: List.replicate (mm - 1) 0 from rfl]
      rw [zero_cons_replicate hm]
    · intro x hx
      rw [List.eq_of_mem_replicate hx]
      exact canon2.mpr (Or.inl rfl)
  · have hi1 : 1 ≤ i := by omega
    by_cases hcase : i - 1 < mm
    · -- low index: the entry is X^(i-1) itself, padded to width m
      have hXlen : (Xpoly (i - 1)).length = i := by
        rw [Xpoly_length]
        omega
      refine ⟨Xpoly (i - 1) ++ List.replicate (mm - i) 0, ?_, ?_,
        canonL_append_zeros (canonL_Xpoly _) _, fun h => absurd h hi0, fun _ => ?_⟩
      · show constructEntry mm pp elements i =
          some (Xpoly (i - 1) ++ List.replicate (mm - i) 0)
        simp only [constructEntry, if_neg hi0]
        rw [if_neg (by rw [degree_Xpoly]; omega)]
        simp only [Option.pure_def, Option.bind_eq_bind, Option.some_bind]
        rw [trim_Xpoly, hXlen]
        rw [if_pos (by omega)]
      · rw [List.length_append, List.length_replicate, hXlen]
        omega
      · rw [toP_append_zeros, toP_Xpoly, sub_self]
        exact dvd_zero _
    · -- high index: multiply out a_high and reduce through the table
      push_neg at hcase
      have hppne : pp ≠ [] := by
        intro h
        rw [h, degree_nil] at hdeg
        omega
      have hpplen : mm + 1 ≤ pp.length := by
        have := degree_lt_length hppne
        omega
      have hahlen : (pp.take mm).length = mm := by
        rw [List.length_take]
        omega
      have hahne : pp.take mm ≠ [] := by
        intro h
        rw [h] at hahlen
        simp at hahlen
        omega
      have hahcanon : CanonL GF2 (pp.take mm) :=
        canonL_of_01 (fun x hx => h01 x (List.take_subset _ _ hx))
      have hahdeg : degree (pp.take mm) < mm := by
        have := degree_lt_length hahne
        omega
      have hcotake : ∀ k, k < mm → co (pp.take mm) k = co pp k := by
        intro k hk
        unfold co
        rw [List.getD_eq_getElem _ _ (by omega),
          List.getD_eq_getElem _ _ (by omega), List.getElem_take]
      have hex : ∃ x ∈ pp, x ≠ 0 := by
        by_contra hall
        push_neg at hall
        have := degree_of_all_zero hall
        omega
      have hcoppm : co pp mm = 1 := by
        have hnz : co pp mm ≠ 0 := by
          have := getD_degree_ne_zero hex
          rw [hdeg] at this
          exact this
        have hmem : co pp mm ∈ pp := by
          unfold co
          rw [List.getD_eq_getElem _ _ (by omega)]
          exact List.getElem_mem _
        rcases h01 _ hmem with h0 | h1
        · exact absurd h0 hnz
        · exact h1
      have hsplit : toP pp = toP (pp.take mm) + Polynomial.X ^ mm := by
        apply Polynomial.ext
        intro k
        rw [Polynomial.coeff_add, toP_coeff, toP_coeff, Polynomial.coeff_X_pow]
        by_cases hk : k < mm
        · rw [if_neg (by omega), hcotake k hk, add_zero]
        · by_cases hk2 : k = mm
          · rw [hk2]
            rw [if_pos rfl, hcoppm]
            have h0 : co (pp.take mm) mm = 0 := by
              unfold co
              exact List.getD_eq_default _ _ (by omega)
            rw [h0, phi_zero, zero_add]
            exact phi_one
          · rw [if_neg hk2, add_zero]
            have h1 : co pp k = 0 := co_eq_zero_of_degree_lt (by omega)
            have h2 : co (pp.take mm) k = 0 := by
              unfold co
              exact List.getD_eq_default _ _ (by omega)
            rw [h1, h2]
      have hahdvd : toP pp ∣ toP (pp.take mm) - Polynomial.X ^ mm := by
        have h2 : toP (pp.take mm) - Polynomial.X ^ mm =
            toP pp - (Polynomial.X ^ mm + Polynomial.X ^ mm) := by
          linear_combination -hsplit
        rw [h2, CharTwo.add_self_eq_zero, sub_zero]
      set r := (i - 1) % mm with hr
      set q0 := (i - 1) / mm with hq0
      have hq0pos : 1 ≤ q0 := by
        rw [hq0]
        rw [Nat.le_div_iff_mul_le (by omega : 0 < mm)]
        omega
      have hrq : r + mm * q0 = i - 1 := by
        rw [hr, hq0]
        exact Nat.mod_add_div _ _
      have hrlt : r < mm := Nat.mod_lt _ (by omega)
      obtain ⟨powed, hpow, hpcanon, hpne, hpdeg, hptoP⟩ :=
        powAhigh_run hahcanon hahne q0 (Xpoly r) (canonL_Xpoly r) (Xpoly_ne_nil r)
      have hpdeg2 : degree powed + 2 ≤ i := by
        rw [degree_Xpoly] at hpdeg
        have h1 : q0 * degree (pp.take mm) ≤ q0 * (mm - 1) :=
          Nat.mul_le_mul_left _ (by omega)
        have h2 : q0 * (mm - 1) + q0 = q0 * mm := by
          rw [← Nat.mul_succ]
          congr 1
          omega
        have h3 : mm * q0 = q0 * mm := Nat.mul_comm _ _
        omega
      have hpdvd : toP pp ∣ toP powed - Polynomial.X ^ (i - 1) := by
        have h1 : toP pp ∣
            (toP (pp.take mm)) ^ q0 - (Polynomial.X ^ mm) ^ q0 :=
          dvd_trans hahdvd (sub_dvd_pow_sub_pow _ _ q0)
        have h2 : toP pp ∣ toP (Xpoly r) *
            ((toP (pp.take mm)) ^ q0 - (Polynomial.X ^ mm) ^ q0) :=
          Dvd.dvd.mul_left h1 _
        have h3 : toP (Xpoly r) *
            ((toP (pp.take mm)) ^ q0 - (Polynomial.X ^ mm) ^ q0) =
            toP powed - Polynomial.X ^ (i - 1) := by
          rw [hptoP, toP_Xpoly, ← hrq, pow_add, pow_mul]
          ring
        rw [← h3]
        exact h2
      obtain ⟨red, hred, hredcanon, hreddeg, hreddvd⟩ :=
        reduceHigh_run hm hrows (powed.length + 1) powed hpcanon (by omega)
          (by rw [hlen]; omega)
      have htlen : (trim red).length ≤ mm := by
        unfold trim
        rw [List.length_take]
        omega
      have htcanon : CanonL GF2 (trim red) :=
        canonL_sub (List.take_subset _ _) hredcanon
      refine ⟨trim red ++ List.replicate (mm - (trim red).length) 0, ?_, ?_,
        canonL_append_zeros htcanon _, fun h => absurd h hi0, fun _ => ?_⟩
      · show constructEntry mm pp elements i =
          some (trim red ++ List.replicate (mm - (trim red).length) 0)
        simp only [constructEntry, if_neg hi0]
        rw [if_pos (by rw [degree_Xpoly]; omega)]
        simp only [degree_Xpoly]
        rw [← hr, ← hq0, hpow]
        simp only [Option.bind_eq_bind, Option.some_bind]
        rw [hred]
        simp only [Option.pure_def, Option.some_bind]
        rw [if_pos htlen]
      · rw [List.length_append, List.length_replicate]
        omega
      · rw [toP_append_zeros, toP_trim]
        have hsum := dvd_add hreddvd hpdvd
        rw [sub_add_sub_cancel] at hsum
        exact hsum

/-- The `for i in range(0, 2**m)` loop of `constructGF`, run up to index
`n`: it succeeds and the accumulated table has one row per index, each a
width-`m` 0/1 vector, row 0 all-zero and row `k ≥ 1` in the residue class
of `X^(k-1)` modulo `pp`. -/
theorem constructFold_run {pp : List Int} {mm : Nat} (hm : 1 ≤ mm)
    (hdeg : degree pp = mm) (h01 : ∀ x ∈ pp, x = 0 ∨ x = 1) :
    ∀ n : Nat, ∃ t, (List.range n).foldlM (fun elements i => do
        let e ← constructEntry mm pp elements i
        pure (elements ++ [e])) ([] : List (List Int)) = some t ∧
      t.length = n ∧
      (∀ k, k < t.length →
        (t.getD k []).length = mm ∧ CanonL GF2 (t.getD k []) ∧
        (1 ≤ k → toP pp ∣ toP (t.getD k []) - Polynomial.X ^ (k - 1))) ∧
      (1 ≤ n → t.getD 0 [] = List.replicate mm 0) := by
  intro n
  induction n with
  | zero => exact ⟨[], rfl, rfl, fun k hk => absurd hk (by simp), by omega⟩
  | succ nn ih =>
    obtain ⟨t, hfold, hlen, hrows, hzero⟩ := ih
    obtain ⟨e, he, helen, hecanon, hzero2, hedvd⟩ :=
      constructEntry_run hm hdeg h01 hlen hrows
    refine ⟨t ++ [e], ?_, by simp [hlen], ?_, ?_⟩
    · rw [List.range_succ, List.foldlM_append, hfold]
      simp only [Option.bind_eq_bind, Option.some_bind, List.foldlM_cons,
        List.foldlM_nil, he, Option.pure_def]
    · intro k hk
      rw [List.length_append] at hk
      simp only [List.length_singleton] at hk
      by_cases hkt : k < t.length
      · rw [List.getD_append _ _ _ _ hkt]
        exact hrows k hkt
      · have hke : k = t.length := by omega
        have hgd : (t ++ [e]).getD k [] = e := by
          rw [hke, List.getD_append_right _ _ _ _ (le_refl _)]
          simp
        rw [hgd]
        refine ⟨helen, hecanon, fun h1 => ?_⟩
        rw [hke, hlen]
        exact hedvd (by omega)
    · intro _
      by_cases hnn : 1 ≤ nn
      · rw [List.getD_append _ _ _ _ (by omega)]
        exact hzero hnn
      · have ht0 : t = [] := List.eq_nil_of_length_eq_zero (by omega)
        subst ht0
        rw [List.nil_append]
        rw [show ([e] : List (List Int)).getD 0 [] = e from rfl]
        exact hzero2 (by omega)

/-- A primitive polynomial over GF(2), read off its coefficient vector: the
multiplicative order of `X` modulo `p` is exactly `2^degree(p) - 1`, i.e.
`p` divides `X^(2^m - 1) - 1` and no smaller `X^k - 1`.  This is the
standard order-theoretic characterisation of primitivity. -/
def Primitive (p : List Int) : Prop :=
  toP p ∣ Polynomial.X ^ (2 ^ degree p - 1) - 1 ∧
  ∀ k : Nat, 1 ≤ k → k < 2 ^ degree p - 1 →
    ¬ toP p ∣ Polynomial.X ^ k - 1

theorem toP_p_natDegree {p : List Int} (hm : 1 ≤ degree p)
    (h01 : ∀ x ∈ p, x = 0 ∨ x = 1) : (toP p).natDegree = degree p := by
  have hex : ∃ x ∈ p, x ≠ 0 := by
    by_contra hall
    push_neg at hall
    have := degree_of_all_zero hall
    omega
  have hne : p ≠ [] := by
    intro h
    rw [h, degree_nil] at hm
    omega
  have hdl := degree_lt_length hne
  apply le_antisymm
  · rw [Polynomial.natDegree_le_iff_coeff_eq_zero]
    intro N hN
    rw [toP_coeff, co_eq_zero_of_degree_lt hN]
    exact phi_zero
  · apply Polynomial.le_natDegree_of_ne_zero
    rw [toP_coeff]
    have hnz : co p (degree p) ≠ 0 := getD_degree_ne_zero hex
    have hmem : co p (degree p) ∈ p := by
      unfold co
      rw [List.getD_eq_getElem _ _ (by omega)]
      exact List.getElem_mem _
    rcases h01 _ hmem with h0 | h1
    · exact absurd h0 hnz
    · rw [h1, phi_one]
      decide

theorem toP_p_not_unit {p : List Int} (hm : 1 ≤ degree p)
    (h01 : ∀ x ∈ p, x = 0 ∨ x = 1) : ¬ IsUnit (toP p) := by
  intro h
  have := Polynomial.natDegree_eq_zero_of_isUnit h
  rw [toP_p_natDegree hm h01] at this
  omega

theorem two_le_two_pow {m : Nat} (hm : 1 ≤ m) : 2 ≤ 2 ^ m := by
  calc 2 = 2 ^ 1 := (pow_one 2).symm
  _ ≤ 2 ^ m := Nat.pow_le_pow_right (by omega) hm

/-- A polynomial whose root generates the multiplicative group cannot
divide any power of `X` (over the field, `X` is invertible mod `p`). -/
theorem prim_not_dvd_Xpow {p : List Int} (hm : 1 ≤ degree p)
    (h01 : ∀ x ∈ p, x = 0 ∨ x = 1)
    (hdvd1 : toP p ∣ Polynomial.X ^ (2 ^ degree p - 1) - 1) (j : Nat) :
    ¬ toP p ∣ Polynomial.X ^ j := by
  intro hX
  have hn1 : 1 ≤ 2 ^ degree p - 1 := by
    have := two_le_two_pow hm
    omega
  have h1 : toP p ∣ Polynomial.X ^ ((2 ^ degree p - 1) * j) :=
    dvd_trans hX (pow_dvd_pow _ (Nat.le_mul_of_pos_left j (by omega)))
  have h2 : toP p ∣ Polynomial.X ^ ((2 ^ degree p - 1) * j) - 1 := by
    have := dvd_trans hdvd1
      (sub_dvd_pow_sub_pow (Polynomial.X ^ (2 ^ degree p - 1)) 1 j)
    rw [← pow_mul, one_pow] at this
    exact this
  have h3 : toP p ∣ (1 : Polynomial (ZMod 2)) := by
    have := dvd_sub h1 h2
    rw [sub_sub_cancel] at this
    exact this
  exact toP_p_not_unit hm h01 (isUnit_of_dvd_one h3)

/-- Primitivity makes the residues of `X^a` and `X^b` distinct for
exponents below `2^m - 1`. -/
theorem prim_rows_distinct {p : List Int} (hm : 1 ≤ degree p)
    (h01 : ∀ x ∈ p, x = 0 ∨ x = 1) (hprim : Primitive p)
    {a b : Nat} (hab : a < b) (hb : b + 1 < 2 ^ degree p) :
    ¬ toP p ∣ Polynomial.X ^ a - Polynomial.X ^ b := by
  intro hdvd
  have hq2 := two_le_two_pow hm
  obtain ⟨c, rfl⟩ : ∃ c, b = a + c := ⟨b - a, by omega⟩
  have hD := hprim.2 c (by omega) (by omega)
  have hfac : (Polynomial.X ^ a - Polynomial.X ^ (a + c) : Polynomial (ZMod 2)) =
      -(Polynomial.X ^ a * (Polynomial.X ^ c - 1)) := by
    rw [pow_add]
    ring
  rw [hfac, dvd_neg] at hdvd
  have h1 : toP p ∣ Polynomial.X ^ ((2 ^ degree p - 1) * a) *
      (Polynomial.X ^ c - 1) := by
    have hstep := Dvd.dvd.mul_left hdvd
      (Polynomial.X ^ ((2 ^ degree p - 1) * a - a))
    rw [← mul_assoc, ← pow_add] at hstep
    have harith : (2 ^ degree p - 1) * a - a + a = (2 ^ degree p - 1) * a := by
      have : a ≤ (2 ^ degree p - 1) * a := Nat.le_mul_of_pos_left a (by omega)
      omega
    rw [harith] at hstep
    exact hstep
  have h2 : toP p ∣ (Polynomial.X ^ ((2 ^ degree p - 1) * a) - 1) *
      (Polynomial.X ^ c - 1) := by
    have hna : toP p ∣ Polynomial.X ^ ((2 ^ degree p - 1) * a) - 1 := by
      have := dvd_trans hprim.1
        (sub_dvd_pow_sub_pow (Polynomial.X ^ (2 ^ degree p - 1)) 1 a)
      rw [← pow_mul, one_pow] at this
      exact this
    exact Dvd.dvd.mul_right hna _
  have h3 : toP p ∣ Polynomial.X ^ c - 1 := by
    have hsub := dvd_sub h1 h2
    have harith2 : (Polynomial.X ^ ((2 ^ degree p - 1) * a) *
        (Polynomial.X ^ c - 1) : Polynomial (ZMod 2)) -
        (Polynomial.X ^ ((2 ^ degree p - 1) * a) - 1) *
        (Polynomial.X ^ c - 1) = Polynomial.X ^ c - 1 := by
      ring
    rw [harith2] at hsub
    exact hsub
  exact hD h3

theorem toP_one_vec (n : Nat) : toP ((1 : Int) :: List.replicate n 0) = 1 := by
  apply Polynomial.ext
  intro k
  rw [toP_coeff, Polynomial.coeff_one]
  cases k with
  | zero =>
    rw [if_pos rfl]
    exact phi_one
  | succ kk =>
    rw [if_neg (by omega)]
    have h : co ((1 : Int) :: List.replicate n 0) (kk + 1) = 0 := by
      have h2 : co ((1 : Int) :: List.replicate n 0) (kk + 1) =
          co (List.replicate n 0) kk := rfl
      rw [h2, co_replicate_zero]
    rw [h]
    exact phi_zero

/-- **C8**  For every valid `m >= 1` and primitive polynomial `p` of degree
`m` over GF(2) (primitive: the order of `X` modulo `p` is `2^m - 1`),
`constructGF(p)` succeeds and the table it yields consists of exactly `2^m`
pairwise distinct polynomial vectors, each of width `m`, with the vector at
index 0 all-zero and the vector at index 1 equal to `[1, 0, ..., 0]`. -/
theorem constructGF_table (p : List Int) (hm : 1 ≤ degree p)
    (h01 : ∀ x ∈ p, x = 0 ∨ x = 1) (hprim : Primitive p) :
    ∃ t, constructGFtable p = some t ∧
      t.length = 2 ^ degree p ∧
      (∀ v ∈ t, v.length = degree p) ∧
      t.getD 0 [] = List.replicate (degree p) 0 ∧
      t.getD 1 [] = 1 :: List.replicate (degree p - 1) 0 ∧
      t.Nodup := by
  by_cases hdeg1 : degree p = 1
  · refine ⟨[[0], [1]], ?_, ?_, ?_, ?_, ?_, by decide⟩
    · simp only [constructGFtable]
      rw [hdeg1]
      rw [if_neg (by omega), if_pos rfl]
    · rw [hdeg1]
      rfl
    · intro v hv
      rw [hdeg1]
      rcases List.mem_cons.mp hv with rfl | hv2
      · rfl
      · rcases List.mem_cons.mp hv2 with rfl | hv3
        · rfl
        · exact absurd hv3 (List.not_mem_nil _)
    · rw [hdeg1]
      rfl
    · rw [hdeg1]
      rfl
  · have hm2 : 2 ≤ degree p := by omega
    have hq2 := two_le_two_pow hm
    obtain ⟨t, hfold, hlen, hrows, hzero⟩ :=
      constructFold_run hm rfl h01 (2 ^ degree p)
    have hrow0 : t.getD 0 [] = List.replicate (degree p) 0 := hzero (by omega)
    have hpair : ∀ k l, k < l → l < t.length → t.getD k [] ≠ t.getD l [] := by
      intro k l hkl hl heqrow
      have hk : k < t.length := by omega
      obtain ⟨hll1, hlc, hldvd⟩ := hrows l hl
      have hltP : toP (t.getD k []) = toP (t.getD l []) := by rw [heqrow]
      have d2 := hldvd (by omega)
      by_cases hk1 : 1 ≤ k
      · obtain ⟨hkl1, hkc, hkdvd⟩ := hrows k hk
        have d1 := hkdvd hk1
        have hsub := dvd_sub d1 d2
        rw [hltP] at hsub
        have hrw : toP (t.getD l []) - Polynomial.X ^ (k - 1) -
            (toP (t.getD l []) - Polynomial.X ^ (l - 1)) =
            Polynomial.X ^ (l - 1) - Polynomial.X ^ (k - 1) := by
          ring
        rw [hrw] at hsub
        have hcontra := prim_rows_distinct hm h01 hprim
          (show k - 1 < l - 1 from by omega)
          (show l - 1 + 1 < 2 ^ degree p from by omega)
        apply hcontra
        have hneg := dvd_neg.mpr hsub
        rw [neg_sub] at hneg
        exact hneg
      · have hk0 : k = 0 := by omega
        rw [hk0, hrow0] at hltP
        rw [toP_replicate_zero] at hltP
        have hXdvd : toP p ∣ Polynomial.X ^ (l - 1) := by
          have hz : toP (t.getD l []) - Polynomial.X ^ (l - 1) =
              -(Polynomial.X ^ (l - 1)) := by
            rw [← hltP]
            ring
          rw [hz, dvd_neg] at d2
          exact d2
        exact prim_not_dvd_Xpow hm h01 hprim.1 (l - 1) hXdvd
    refine ⟨t, ?_, hlen, ?_, hrow0, ?_, ?_⟩
    · simp only [constructGFtable]
      rw [if_neg (by omega), if_neg (by omega)]
      exact hfold
    · intro v hv
      rcases List.mem_iff_getElem.mp hv with ⟨k, hk, rfl⟩
      have hw := (hrows k hk).1
      rw [List.getD_eq_getElem _ _ hk] at hw
      exact hw
    · have h1lt : 1 < t.length := by omega
      obtain ⟨hrl, hrc, hrdvd⟩ := hrows 1 h1lt
      have hdvd := hrdvd (le_refl 1)
      rw [show (1 : Nat) - 1 = 0 from rfl, pow_zero] at hdvd
      have hzero1 : toP (t.getD 1 []) - 1 = 0 := by
        by_contra hne
        have hle := Polynomial.natDegree_le_of_dvd hdvd hne
        rw [toP_p_natDegree hm h01] at hle
        have hd1 : (toP (t.getD 1 [])).natDegree ≤ degree p - 1 := by
          have := toP_natDegree_le (t.getD 1 [])
          rw [hrl] at this
          exact this
        have hd2 : (toP (t.getD 1 []) - 1).natDegree ≤ degree p - 1 := by
          have hb := Polynomial.natDegree_sub_le (toP (t.getD 1 [])) 1
          rw [Polynomial.natDegree_one] at hb
          omega
        omega
      have heq1 : toP (t.getD 1 []) = 1 := by
        have := sub_eq_zero.mp hzero1
        exact this
      apply toP_inj hrc
      · intro x hx
        rcases List.mem_cons.mp hx with rfl | h
        · exact canon2.mpr (Or.inr rfl)
        · rw [List.eq_of_mem_replicate h]
          exact canon2.mpr (Or.inl rfl)
      · rw [hrl]
        simp
        omega
      · rw [heq1, toP_one_vec]
    · rw [List.nodup_iff_injective_get]
      intro a b hab
      rcases a with ⟨k, hk⟩
      rcases b with ⟨l, hl⟩
      simp only [List.get_eq_getElem] at hab
      have hkl : k = l := by
        by_contra hne
        rcases Nat.lt_trichotomy k l with h | h | h
        · exact hpair k l h hl (by
            rw [List.getD_eq_getElem _ _ hk, List.getD_eq_getElem _ _ hl]
            exact hab)
        · exact hne h
        · exact hpair l k h hk (by
            rw [List.getD_eq_getElem _ _ hl, List.getD_eq_getElem _ _ hk]
            exact hab.symm)
      subst hkl
      rfl

theorem toP_11 : toP [1, 1] = Polynomial.X + 1 := by
  apply Polynomial.ext
  intro k
  rw [toP_coeff, Polynomial.coeff_add, Polynomial.coeff_one, Polynomial.coeff_X]
  match k with
  | 0 =>
    rw [if_neg (by omega), if_pos rfl, zero_add]
    exact phi_one
  | 1 =>
    rw [if_pos rfl, if_neg (by omega), add_zero]
    exact phi_one
  | (kk + 2) =>
    rw [if_neg (by omega), if_neg (by omega), add_zero]
    have h : co [1, 1] (kk + 2) = 0 := by
      unfold co
      exact List.getD_eq_default _ _ (by simp)
    rw [h]
    exact phi_zero

/-- `X + 1` (the vector `[1, 1]`) is the primitive polynomial of degree 1:
`X ≡ 1` mod `X + 1` has order `1 = 2^1 - 1`. -/
theorem prim_X_add_one : Primitive [1, 1] := by
  have hd : (2 : Nat) ^ degree [1, 1] - 1 = 1 := by decide
  constructor
  · rw [hd, pow_one]
    refine ⟨1, ?_⟩
    rw [toP_11, mul_one, CharTwo.sub_eq_add]
  · intro k hk1 hk2
    rw [hd] at hk2
    omega

/-- Witness for the C8 theorem: the degree-1 primitive polynomial `X + 1`,
whose field is GF(2) with the table `[[0], [1]]`. -/
theorem constructGF_table_witness :
    (1 ≤ degree [1, 1] ∧ (∀ x ∈ ([1, 1] : List Int), x = 0 ∨ x = 1) ∧
      Primitive [1, 1]) ∧
    (∃ t, constructGFtable [1, 1] = some t ∧
      t.length = 2 ^ degree [1, 1] ∧
      (∀ v ∈ t, v.length = degree [1, 1]) ∧
      t.getD 0 [] = List.replicate (degree [1, 1]) 0 ∧
      t.getD 1 [] = 1 :: List.replicate (degree [1, 1] - 1) 0 ∧
      t.Nodup) :=
  ⟨⟨by decide, by decide, prim_X_add_one⟩,
    constructGF_table [1, 1] (by decide) (by decide) prim_X_add_one⟩

end GaloisFieldPy
